import Mathlib

/-!
Shallow embedding of `src/scraper.py` (a Panopto lecture-transcript scraper).

The pure helpers of the scraper are translated into Lean definitions:

* `extractVideoId`      — `_extract_video_id` (lines 114-131), including the
  relevant behaviour of Python's `urllib.parse.urlparse` / `parse_qs`;
* `extractTranscriptLine` — `_extract_transcript_line` (lines 90-111),
  the pure text-cleaning core applied to the raw DOM text;
* `slugify`             — `_slugify` (lines 134-136);
* `buildTranscriptPath` — `_build_transcript_path` (lines 139-153), with the
  filesystem modelled as the list of existing file names in the directory;
* `loadScrapedRecords` / `appendScrapedRecord` — the state store
  (lines 40-59 and 62-87), with the state file modelled as its text content;
* `videosToScrape`      — the dedup filter loop of `scrape_panopto_folder`
  (lines 245-258).

Python string semantics are modelled explicitly: `pyIsSpace` is the exact
character set of `str.isspace`, `pySplitlines` the line-boundary set of
`str.splitlines`, and file reading uses universal-newline translation
(`\r\n`/`\r` → `\n`).  Two deliberate restrictions, noted where used:
`pyLower` implements `str.lower` on ASCII only (every call site lowercases
UUID/scheme text, which is ASCII, or compares against the ASCII keywords
"retry"/"cancel", whose letters are not the lowercase image of any
non-ASCII character), and the `\d` of the timestamp regex is modelled as
the ASCII digits (the claims under study do not distinguish non-ASCII
decimal digits).  `os.linesep` is modelled as `"\n"` (POSIX).
-/

namespace Scraper

/-! ### Python character predicates and string helpers -/

/-- The exact character set of Python's `str.isspace` (used by `str.strip()`). -/
def pyIsSpace (c : Char) : Bool :=
  let n := c.toNat
  (0x09 ≤ n && n ≤ 0x0D) || (0x1C ≤ n && n ≤ 0x1F) || n == 0x20 || n == 0x85 ||
  n == 0xA0 || n == 0x1680 || (0x2000 ≤ n && n ≤ 0x200A) || n == 0x2028 ||
  n == 0x2029 || n == 0x202F || n == 0x205F || n == 0x3000

/-- Python `str.strip()` on a character list. -/
def pyStripList (cs : List Char) : List Char :=
  ((cs.dropWhile pyIsSpace).reverse.dropWhile pyIsSpace).reverse

/-- Python `str.strip()`. -/
def pyStrip (s : String) : String := String.mk (pyStripList s.data)

/-- Python `str.lower` restricted to ASCII (see the header comment). -/
def pyLowerChar (c : Char) : Char :=
  if 'A' ≤ c && c ≤ 'Z' then Char.ofNat (c.toNat + 32) else c

/-- Python `str.lower` restricted to ASCII. -/
def pyLower (s : String) : String := String.mk (s.data.map pyLowerChar)

/-- `[0-9a-fA-F]` of the `VIDEO_ID_PATTERN` regex. -/
def isHexChar (c : Char) : Bool :=
  ('0' ≤ c && c ≤ '9') || ('a' ≤ c && c ≤ 'f') || ('A' ≤ c && c ≤ 'F')

/-- Consume exactly `n` hex digits, returning the remainder. -/
def takeHex : Nat → List Char → Option (List Char)
  | 0, rest => some rest
  | _ + 1, [] => none
  | n + 1, c :: rest => if isHexChar c then takeHex n rest else none

/-- Consume a literal `'-'`. -/
def expectDash : Option (List Char) → Option (List Char)
  | some (c :: rest) => if c = '-' then some rest else none
  | _ => none

/-- `VIDEO_ID_PATTERN.fullmatch`: the regex
`^[0-9a-fA-F]{8}-[0-9a-fA-F]{4}-[0-9a-fA-F]{4}-[0-9a-fA-F]{4}-[0-9a-fA-F]{12}$`. -/
def isUuid (s : String) : Bool :=
  match expectDash (expectDash (expectDash (expectDash
      (takeHex 8 s.data) |>.bind (takeHex 4)) |>.bind (takeHex 4))
      |>.bind (takeHex 4)) |>.bind (takeHex 12) with
  | some [] => true
  | _ => false

/-- `\d` of `TIMESTAMP_PATTERN`, modelled as the ASCII digits. -/
def isDigitChar (c : Char) : Bool := '0' ≤ c && c ≤ '9'

/-- `TIMESTAMP_PATTERN.fullmatch`: the regex `\d{1,2}:\d{2}(?::\d{2})?`.
A full match exists exactly for the shapes `d:dd`, `dd:dd`, `d:dd:dd`,
`dd:dd:dd`. -/
def isTimestamp (s : String) : Bool :=
  match s.data with
  | [a, ':', c, d] => isDigitChar a && isDigitChar c && isDigitChar d
  | [a, b, ':', c, d] =>
    isDigitChar a && isDigitChar b && isDigitChar c && isDigitChar d
  | [a, ':', c, d, ':', e, f] =>
    isDigitChar a && isDigitChar c && isDigitChar d &&
    isDigitChar e && isDigitChar f
  | [a, b, ':', c, d, ':', e, f] =>
    isDigitChar a && isDigitChar b && isDigitChar c && isDigitChar d &&
    isDigitChar e && isDigitChar f
  | _ => false

/-- Python truthiness of an optional string (`None` and `""` are falsy). -/
def optTruthy (o : Option String) : Bool := !(o.getD "" == "")

/-- Split a list at every occurrence of `sep`, keeping empty pieces
(Python `str.split(sep)`). -/
def splitOnCharAux (sep : Char) (acc : List Char) : List Char → List (List Char)
  | [] => [acc.reverse]
  | c :: rest =>
    if c = sep then acc.reverse :: splitOnCharAux sep [] rest
    else splitOnCharAux sep (c :: acc) rest

/-- Python `str.split(sep)` on character lists. -/
def splitOnChar (sep : Char) (cs : List Char) : List (List Char) :=
  splitOnCharAux sep [] cs

/-- Python `str.split(sep, 1)`: the part before the first occurrence of
`sep` and, when `sep` occurs, the rest after it. -/
def splitFirst (sep : Char) : List Char → List Char × Option (List Char)
  | [] => ([], none)
  | c :: cs =>
    if c = sep then ([], some cs)
    else
      match splitFirst sep cs with
      | (pre, rest) => (c :: pre, rest)

/-- The line-boundary characters of Python `str.splitlines`. -/
def isLineBreak (c : Char) : Bool :=
  c == '\n' || c == '\r' || c == '\x0b' || c == '\x0c' ||
  c == '\x1c' || c == '\x1d' || c == '\x1e' ||
  c.toNat == 0x85 || c.toNat == 0x2028 || c.toNat == 0x2029

/-- Worker for `pySplitlines`: `\r\n` counts as a single boundary and a
terminal boundary does not produce a trailing empty line. -/
def pySplitlinesAux (acc : List Char) : List Char → List (List Char)
  | [] => [acc.reverse]
  | [c] => if isLineBreak c then [acc.reverse] else [(c :: acc).reverse]
  | c :: d :: rest =>
    if c = '\r' && d = '\n' then
      acc.reverse :: (if rest.isEmpty then [] else pySplitlinesAux [] rest)
    else if isLineBreak c then
      acc.reverse :: pySplitlinesAux [] (d :: rest)
    else pySplitlinesAux (c :: acc) (d :: rest)

/-- Python `str.splitlines` (`"".splitlines() == []`). -/
def pySplitlines (s : String) : List String :=
  match s.data with
  | [] => []
  | cs => (pySplitlinesAux [] cs).map String.mk

/-! ### `urllib.parse` model

`_extract_video_id` calls `urlparse` and `parse_qs`; their behaviour
(CPython's `urllib/parse.py`) is translated here.  Not modelled, with no
bearing on the claims: the NFKC re-check of non-ASCII netlocs
(`_checknetloc`) and the validation of a *matched* bracketed host added in
newer CPython (`_check_bracketed_host`; it only raises on more inputs,
reinforcing the finding about C2); the `ValueError("Invalid IPv6 URL")`
raised on an unmatched bracket in every CPython version is modelled. -/

/-- The WHATWG C0-control-or-space class; `urlsplit` strips it from the
*left* end only ("some applications rely on preserving trailing space"). -/
def isC0OrSpace (c : Char) : Bool := c.toNat ≤ 0x20

/-- `scheme_chars` of `urllib.parse`. -/
def isSchemeChar (c : Char) : Bool :=
  ('a' ≤ c && c ≤ 'z') || ('A' ≤ c && c ≤ 'Z') || ('0' ≤ c && c ≤ '9') ||
  c == '+' || c == '-' || c == '.'

/-- ASCII letter test (`url[0].isascii() and url[0].isalpha()`). -/
def isAsciiAlpha (c : Char) : Bool :=
  let n := c.toNat
  (65 ≤ n ∧ n ≤ 90) ∨ (97 ≤ n ∧ n ≤ 122)

/-- The scheme-splitting step of `urlsplit`: split at the first `':'` when
`url[0]` is an ASCII letter and everything before the colon is made of
`scheme_chars`, lower-casing the scheme. -/
def splitScheme (cs : List Char) : List Char × List Char :=
  let i := cs.findIdx (· = ':')
  if i = 0 ∨ i = cs.length then ([], cs)
  else
    match cs with
    | [] => ([], cs)
    | c0 :: _ =>
      if isAsciiAlpha c0 && (cs.take i).all isSchemeChar then
        ((cs.take i).map pyLowerChar, cs.drop (i + 1))
      else ([], cs)

/-- `_splitnetloc`: the netloc runs to the first of `/`, `?`, `#`. -/
def netlocEnd (c : Char) : Bool := c == '/' || c == '?' || c == '#'

/-- Split at the first occurrence of `sep`, dropping it; the whole list and
an empty tail when `sep` is absent (Python `url.split(sep, 1)` guarded by
`sep in url`). -/
def splitFirstAt (sep : Char) (cs : List Char) : List Char × List Char :=
  match splitFirst sep cs with
  | (before, some rest) => (before, rest)
  | (_, none) => (cs, [])

/-- Result of `urlsplit` (the `params` of `urlparse` is split later). -/
structure UrlSplitResult where
  scheme : String
  netloc : String
  path : String
  query : String
  fragment : String
  deriving Repr, DecidableEq

/-- `urllib.parse.urlsplit`: left-strip C0 controls and spaces, remove
tab/CR/LF everywhere, split scheme, netloc (raising `ValueError` on an
unmatched square bracket), fragment, then query. -/
def pyUrlsplit (url : String) : Except String UrlSplitResult :=
  let u0 := url.data.dropWhile isC0OrSpace
  let u1 := u0.filter (fun c => !(c == '\t' || c == '\r' || c == '\n'))
  let (scheme, u2) := splitScheme u1
  let (netloc, u3) :=
    if u2.take 2 = ['/', '/'] then
      ((u2.drop 2).takeWhile (fun c => !netlocEnd c),
       (u2.drop 2).dropWhile (fun c => !netlocEnd c))
    else ([], u2)
  if (netloc.contains '[' && !netloc.contains ']') ||
     (netloc.contains ']' && !netloc.contains '[') then
    .error "Invalid IPv6 URL"
  else
    let (u4, fragment) := splitFirstAt '#' u3
    let (path, query) := splitFirstAt '?' u4
    .ok ⟨String.mk scheme, String.mk netloc, String.mk path,
         String.mk query, String.mk fragment⟩

/-- `_splitparams`: drop the `;params` suffix of the last path segment. -/
def splitParams (path : List Char) : List Char :=
  if path.contains ';' then
    if path.contains '/' then
      let j := path.length - 1 - (path.reverse.findIdx (· = '/'))
      match (path.drop j).findIdx? (· = ';') with
      | some k => path.take (j + k)
      | none => path
    else path.take (path.findIdx (· = ';'))
  else path

/-- Result of `urlparse` restricted to the fields the scraper reads. -/
structure UrlParseResult where
  scheme : String
  netloc : String
  path : String
  query : String
  fragment : String
  deriving Repr, DecidableEq

/-- `urllib.parse.urlparse`: `urlsplit` plus the params split on the path. -/
def pyUrlparse (url : String) : Except String UrlParseResult :=
  match pyUrlsplit url with
  | .error e => .error e
  | .ok r =>
    .ok ⟨r.scheme, r.netloc, String.mk (splitParams r.path.data),
         r.query, r.fragment⟩

/-! ### `unquote` and UTF-8 decoding with replacement -/

/-- Hex digit value, if any (`_hextobyte` maps `0-9a-fA-F`; expressed on
the code point: digits live at 48-57, lower-case at 97-102 with value
code-87, upper-case at 65-70 with value code-55). -/
def hexVal (c : Char) : Option Nat :=
  let n := c.toNat
  if 48 ≤ n ∧ n ≤ 57 then some (n - 48)
  else if 97 ≤ n ∧ n ≤ 102 then some (n - 87)
  else if 65 ≤ n ∧ n ≤ 70 then some (n - 55)
  else none

/-- `urllib.parse.unquote_to_bytes` on an ASCII run: `%XY` with valid hex
becomes a byte, an ill-formed escape passes through literally. -/
def unquoteToBytes : List Char → List Nat
  | [] => []
  | '%' :: a :: b :: rest =>
    match hexVal a, hexVal b with
    | some x, some y => (16 * x + y) :: unquoteToBytes rest
    | _, _ => '%'.toNat :: unquoteToBytes (a :: b :: rest)
  | c :: rest => c.toNat :: unquoteToBytes rest

/-- The Unicode replacement character. -/
def replacementChar : Char := Char.ofNat 0xFFFD

/-- State of the incremental UTF-8 decoder (WHATWG algorithm, which is the
"maximal subpart" replacement policy CPython uses for `errors='replace'`). -/
structure Utf8State where
  cp : Nat
  needed : Nat
  lower : Nat
  upper : Nat
  deriving Repr, DecidableEq

/-- Initial decoder state. -/
def utf8Init : Utf8State := ⟨0, 0, 0x80, 0xBF⟩

/-- Handle a byte in the initial state (lead byte or ASCII). -/
def utf8Lead (b : Nat) : Utf8State × List Char :=
  if b ≤ 0x7F then (utf8Init, [Char.ofNat b])
  else if 0xC2 ≤ b && b ≤ 0xDF then (⟨b % 32, 1, 0x80, 0xBF⟩, [])
  else if 0xE0 ≤ b && b ≤ 0xEF then
    (⟨b % 16, 2, if b = 0xE0 then 0xA0 else 0x80,
      if b = 0xED then 0x9F else 0xBF⟩, [])
  else if 0xF0 ≤ b && b ≤ 0xF4 then
    (⟨b % 8, 3, if b = 0xF0 then 0x90 else 0x80,
      if b = 0xF4 then 0x8F else 0xBF⟩, [])
  else (utf8Init, [replacementChar])

/-- One step of the UTF-8 decoder. -/
def utf8Step (st : Utf8State) (b : Nat) : Utf8State × List Char :=
  if st.needed = 0 then utf8Lead b
  else if st.lower ≤ b && b ≤ st.upper then
    let cp := st.cp * 64 + b % 64
    if st.needed = 1 then (utf8Init, [Char.ofNat cp])
    else (⟨cp, st.needed - 1, 0x80, 0xBF⟩, [])
  else
    let (st', out) := utf8Lead b
    (st', replacementChar :: out)

/-- `bytes.decode('utf-8', errors='replace')`. -/
def utf8DecodeReplace (bs : List Nat) : List Char :=
  let r := bs.foldl (fun (p : Utf8State × List Char) b =>
    let (st, out) := utf8Step p.1 b
    (st, p.2 ++ out)) (utf8Init, [])
  r.2 ++ (if r.1.needed = 0 then [] else [replacementChar])

/-- `unquote` applied to one maximal ASCII run: percent-decode to bytes and
decode those as UTF-8 with replacement. -/
def unquoteAsciiRun (run : List Char) : List Char :=
  utf8DecodeReplace (unquoteToBytes run)

/-- `urllib.parse.unquote`: only maximal ASCII runs are percent-decoded
(the `_asciire` split); non-ASCII characters pass through.  On a string
without `%` this is the identity, matching `unquote`'s early return. -/
def unquoteAux (acc : List Char) : List Char → List Char
  | [] => unquoteAsciiRun acc.reverse
  | c :: rest =>
    if c.toNat ≤ 0x7F then unquoteAux (c :: acc) rest
    else unquoteAsciiRun acc.reverse ++ c :: unquoteAux [] rest

/-- `urllib.parse.unquote` with the default encoding and errors. -/
def pyUnquote (s : String) : String := String.mk (unquoteAux [] s.data)

/-! ### `parse_qsl` / `parse_qs` -/

/-- The `.replace('+', ' ')` applied to names and values. -/
def plusToSpace (cs : List Char) : List Char :=
  cs.map (fun c => if c = '+' then ' ' else c)

/-- `urllib.parse.parse_qsl` with default arguments: split the query on
`&`; skip empty chunks, chunks without `=`, and chunks with an empty
value; `+` becomes a space and both halves are unquoted. -/
def parseQsl (qs : String) : List (String × String) :=
  (splitOnChar '&' qs.data).foldl (fun acc chunk =>
    if chunk.isEmpty then acc
    else
      match splitFirst '=' chunk with
      | (_, none) => acc
      | (n, some v) =>
        if v.isEmpty then acc
        else acc ++ [(pyUnquote (String.mk (plusToSpace n)),
                      pyUnquote (String.mk (plusToSpace v)))]) []

/-- Insert one pair into the ordered multi-dict built by `parse_qs`. -/
def qsInsert (m : List (String × List String)) (k v : String) :
    List (String × List String) :=
  match m with
  | [] => [(k, [v])]
  | (k', vs) :: rest =>
    if k' = k then (k', vs ++ [v]) :: rest else (k', vs) :: qsInsert rest k v

/-- `urllib.parse.parse_qs` with default arguments. -/
def parseQs (qs : String) : List (String × List String) :=
  (parseQsl qs).foldl (fun m p => qsInsert m p.1 p.2) []

/-! ### `_extract_video_id` -/

/-- The key loop of `_extract_video_id`: for each key in order, if the key
is present take its *first* value; return it lower-cased when it is a
non-empty full match of the UUID pattern, otherwise fall through to the
next key. -/
def queryLoop (q : List (String × List String)) : List String → Option String
  | [] => none
  | k :: ks =>
    match q.lookup k with
    | some (v :: _) =>
      if !(v == "") && isUuid v then some (pyLower v) else queryLoop q ks
    | _ => queryLoop q ks

/-- `parsed.path.rstrip("/").split("/")[-1]`. -/
def lastSegment (path : List Char) : List Char :=
  let p := (path.reverse.dropWhile (· = '/')).reverse
  (p.reverse.takeWhile (· ≠ '/')).reverse

/-- `_extract_video_id` (lines 114-131).  `Except.error` models the
`ValueError` that `urlparse` can raise. -/
def extractVideoId (url : Option String) : Except String (Option String) :=
  if url.getD "" = "" then .ok none
  else
    match pyUrlparse (url.getD "") with
    | .error e => .error e
    | .ok parsed =>
      let query := parseQs parsed.query
      match queryLoop query ["id", "objectId", "contentID"] with
      | some v => .ok (some v)
      | none =>
        let seg := lastSegment parsed.path.data
        if !seg.isEmpty && isUuid (String.mk seg) then
          .ok (some (pyLower (String.mk seg)))
        else .ok none

/-! ### `_extract_transcript_line` -/

/-- The noise filter of `_extract_transcript_line`: keep non-empty trimmed
lines that are not (case-insensitively) `"retry"` or `"cancel"`. -/
def keepPiece (p : String) : Bool :=
  !(p == "") && !(pyLower p == "retry") && !(pyLower p == "cancel")

/-- The downward index scan `for idx in range(len(pieces)-1, -1, -1)`:
the greatest index holding a timestamp, if any. -/
def timestampIdx (pieces : List String) : Option Nat :=
  ((List.range pieces.length).reverse).find? (fun i =>
    isTimestamp (pieces.getD i ""))

/-- `" ".join(pieces)` at the character level. -/
def joinSpaces : List String → List Char
  | [] => []
  | [p] => p.data
  | p :: ps => p.data ++ ' ' :: joinSpaces ps

/-- Lines 96-97 of the source: split into trimmed lines and drop noise. -/
def transcriptPieces (rawText : String) : List String :=
  ((pySplitlines rawText).map pyStrip).filter keepPiece

/-- Lines 107-111 of the source: join the remaining pieces with single
spaces, strip, return `None` on an empty body, else prefix the timestamp. -/
def finishLine (timestamp : Option String) (rest : List String) : Option String :=
  let text := pyStrip (String.mk (joinSpaces rest))
  if text == "" then none
  else
    match timestamp with
    | some ts => some (ts ++ " " ++ text)
    | none => some text

/-- The pure core of `_extract_transcript_line` (lines 90-111), applied to
the raw text read from the DOM element: split into trimmed lines, drop
noise, pop at most one timestamp scanning from the end (lines 101-105),
join with single spaces, and prefix the timestamp. -/
def extractTranscriptLine (rawText : String) : Option String :=
  let pieces := transcriptPieces rawText
  if pieces.isEmpty then none
  else
    match timestampIdx pieces with
    | some i => finishLine (some (pieces.getD i "")) (pieces.eraseIdx i)
    | none => finishLine none pieces

/-! ### `_slugify` -/

/-- ASCII alphanumeric (`[A-Za-z0-9]` of the slug regex). -/
def isAsciiAlnum (c : Char) : Bool :=
  let n := c.toNat
  (48 ≤ n ∧ n ≤ 57) ∨ (65 ≤ n ∧ n ≤ 90) ∨ (97 ≤ n ∧ n ≤ 122)

/-- Worker for `collapseRuns`: `inRun` records whether the previous
character was part of a non-alphanumeric run whose hyphen is already
emitted. -/
def collapseRunsAux (inRun : Bool) : List Char → List Char
  | [] => []
  | c :: cs =>
    if isAsciiAlnum c then c :: collapseRunsAux false cs
    else if inRun then collapseRunsAux true cs
    else '-' :: collapseRunsAux true cs

/-- `re.sub(r"[^A-Za-z0-9]+", "-", text)`: each maximal run of
non-alphanumeric characters becomes a single hyphen. -/
def collapseRuns (cs : List Char) : List Char := collapseRunsAux false cs

/-- Python `str.strip("-")`. -/
def stripDashes (cs : List Char) : List Char :=
  ((cs.dropWhile (· = '-')).reverse.dropWhile (· = '-')).reverse

/-- `_slugify` (lines 134-136): collapse, strip hyphens, truncate to 80
characters, fall back to `"transcript"` when empty. -/
def slugify (text : String) : String :=
  let slug := stripDashes (collapseRuns text.data)
  if (slug.take 80).isEmpty then "transcript" else String.mk (slug.take 80)

/-! ### State store (`_load_scraped_records` / `_append_scraped_record`)

The state file is modelled by its text content; `none` stands for "no
path configured" (for `load`, also for a missing file).  Reading uses
universal-newline translation as Python text mode does; `os.linesep` is
modelled as `"\n"` (POSIX).  Python sets become lists inserted without
duplication; only membership in them is ever consumed. -/

/-- In-memory `records` dictionary: `{"ids": set(), "titles": set()}`. -/
structure ScrapeRecords where
  ids : List String
  titles : List String
  deriving Repr, DecidableEq

/-- Python `set.add`. -/
def addSet (xs : List String) (x : String) : List String :=
  if xs.contains x then xs else xs ++ [x]

/-- Universal-newline translation done by text-mode reading:
`\r\n` and `\r` become `\n`. -/
def universalizeNewlines : List Char → List Char
  | [] => []
  | '\r' :: '\n' :: rest => '\n' :: universalizeNewlines rest
  | '\r' :: rest => '\n' :: universalizeNewlines rest
  | c :: rest => c :: universalizeNewlines rest

/-- The lines seen when iterating over an open text file (a trailing empty
piece is harmless: the loader skips blank entries). -/
def splitFileLines (content : String) : List String :=
  (splitOnChar '\n' (universalizeNewlines content.data)).map String.mk

/-- Processing of one line of the state file by `_load_scraped_records`. -/
def loadLine (recs : ScrapeRecords) (rawLine : String) : ScrapeRecords :=
  let entry := pyStrip rawLine
  if entry == "" then recs
  else
    match splitFirst '|' entry.data with
    | (p0, rest) =>
      let candidate := pyStrip (String.mk p0)
      if isUuid candidate then
        let recs := { recs with ids := addSet recs.ids (pyLower candidate) }
        match rest with
        | some r =>
          if !(pyStrip (String.mk r) == "") then
            { recs with titles := addSet recs.titles (pyStrip (String.mk r)) }
          else recs
        | none => recs
      else { recs with titles := addSet recs.titles entry }

/-- `_load_scraped_records` (lines 40-59); `none` models "no state path
configured or the file does not exist". -/
def loadScrapedRecords (content : Option String) : ScrapeRecords :=
  match content with
  | none => ⟨[], []⟩
  | some c => (splitFileLines c).foldl loadLine ⟨[], []⟩

/-- `_append_scraped_record` (lines 62-87), returning the updated in-memory
records and the new state-file content.  The in-memory sets are updated
before the path check, so they change whether or not persistence is
configured; the file only ever grows by the single appended line. -/
def appendScrapedRecord (recs : ScrapeRecords) (stateContent : Option String)
    (videoId : Option String) (title : String) :
    ScrapeRecords × Option String :=
  let cleanTitle := pyStrip title
  let recs :=
    if optTruthy videoId then
      { recs with ids := addSet recs.ids (pyLower (videoId.getD "")) }
    else recs
  let recs :=
    if !(cleanTitle == "") then
      { recs with titles := addSet recs.titles cleanTitle }
    else recs
  match stateContent with
  | none => (recs, none)
  | some content =>
    let line : Option String :=
      if optTruthy videoId then
        some (if !(cleanTitle == "") then
                videoId.getD "" ++ "|" ++ cleanTitle
              else videoId.getD "")
      else if !(cleanTitle == "") then some cleanTitle
      else none
    match line with
    | some l => (recs, some (content ++ l ++ "\n"))
    | none => (recs, some content)

/-! ### `_build_transcript_path`

The output directory is modelled by the list of file names existing in
it; the function only tests existence and creates nothing, so the model
returns just the chosen name.  The unbounded `while path.exists()` loop
is given `existing.length + 1` units of fuel: the candidate names are
pairwise distinct (proved below), so by pigeonhole a free name is always
found within the fuel and the fuel-exhausted branch is unreachable. -/

/-- Candidate file name for a counter value. -/
def counterName (base : String) (k : Nat) : String :=
  base ++ "-" ++ Nat.repr k ++ ".txt"

/-- The `while path.exists()` loop of `_build_transcript_path`. -/
def firstFreeCounter (existing : List String) (base : String) :
    Nat → Nat → String
  | _, 0 => ""
  | k, fuel + 1 =>
    if existing.contains (counterName base k) then
      firstFreeCounter existing base (k + 1) fuel
    else counterName base k

/-- The base name: slugified title (or `"untitled-session"` when the title
is `None` or empty) plus `-{first 8 characters of id}` when an id is
present. -/
def transcriptBase (title : Option String) (videoId : Option String) : String :=
  let safeTitle := slugify (if optTruthy title then title.getD "" else "untitled-session")
  let suffix :=
    if optTruthy videoId then "-" ++ String.mk ((videoId.getD "").data.take 8)
    else ""
  safeTitle ++ suffix

/-- `_build_transcript_path` (lines 139-153) on the filesystem model. -/
def buildTranscriptPath (existing : List String) (title videoId : Option String) :
    String :=
  let base := transcriptBase title videoId
  if existing.contains (base ++ ".txt") then
    firstFreeCounter existing base 1 (existing.length + 1)
  else base ++ ".txt"

/-! ### The dedup filter of `scrape_panopto_folder` (lines 245-258) -/

/-- One enumerated video (`{"title": ..., "url": ..., "id": ...}`). -/
structure VideoMeta where
  title : String
  url : Option String
  id : Option String
  deriving Repr, DecidableEq

/-- The effective title used by the filter:
`title = video["title"] or "(untitled)"`. -/
def effectiveTitle (v : VideoMeta) : String :=
  if v.title == "" then "(untitled)" else v.title

/-- The filter loop: skip a video when its id is already in `seenIds`, its
effective title is in `seenTitles`, or its URL is falsy; keep the rest in
order. -/
def videosToScrape (scraped : ScrapeRecords) (videos : List VideoMeta) :
    List VideoMeta :=
  videos.foldl (fun acc video =>
    if optTruthy video.id && scraped.ids.contains (video.id.getD "") then acc
    else if scraped.titles.contains (effectiveTitle video) then acc
    else if !optTruthy video.url then acc
    else acc ++ [video]) []

/-! ### Spec-side definitions

These follow the wording of the specification (and of the amended claims)
rather than the code; the theorems below compare them with the
translations above. -/

/-- Spec wording for C1: the first value stored under a query key, when it
matches the UUID shape. -/
def firstUuidValue (q : List (String × List String)) (key : String) :
    Option String :=
  match q.lookup key with
  | some (v :: _) => if isUuid v then some v else none
  | _ => none

/-- Spec wording for C1: the last non-empty segment of the path, when it
matches the UUID shape. -/
def pathUuidFallback (path : String) : Option String :=
  match ((splitOnChar '/' path.data).filter (fun seg => !seg.isEmpty)).getLast? with
  | none => none
  | some seg =>
    if isUuid (String.mk seg) then some (pyLower (String.mk seg)) else none

/-- Spec wording for C1 (amended): try the keys in priority order, taking
for each present key only its *first* stored value; when no key yields a
UUID-shaped first value, fall back to the path's last non-empty segment. -/
def specVideoId (parsed : UrlParseResult) : Option String :=
  match firstUuidValue (parseQs parsed.query) "id" with
  | some v => some (pyLower v)
  | none =>
    match firstUuidValue (parseQs parsed.query) "objectId" with
    | some v => some (pyLower v)
    | none =>
      match firstUuidValue (parseQs parsed.query) "contentID" with
      | some v => some (pyLower v)
      | none => pathUuidFallback parsed.path

/-- Spec wording for C4: scan the pieces from the end and remove at most
one timestamp token. -/
def popLastTimestamp : List String → Option String × List String
  | [] => (none, [])
  | p :: ps =>
    match popLastTimestamp ps with
    | (some ts, ps') => (some ts, p :: ps')
    | (none, _) =>
      if isTimestamp p then (some p, ps) else (none, p :: ps)

/-- Spec wording for C4: split the raw text into non-empty trimmed lines,
drop the `"retry"`/`"cancel"` noise, remove at most one timestamp found
scanning from the end, join the remaining lines with single spaces,
prefix the timestamp separated by one space, and return `none` when no
body remains. -/
def cleanTranscriptLineSpec (rawText : String) : Option String :=
  match popLastTimestamp (transcriptPieces rawText) with
  | (timestamp, rest) =>
    let body := joinSpaces rest
    if body.isEmpty then none
    else
      match timestamp with
      | some ts => some (ts ++ " " ++ String.mk body)
      | none => some (String.mk body)

/-- Spec wording for C8: the exact text appended to the state file by one
call of `append`. -/
def appendedSuffix (videoId : Option String) (title : String) : String :=
  let cleanTitle := pyStrip title
  if optTruthy videoId then
    (if cleanTitle = "" then videoId.getD "" else
      videoId.getD "" ++ "|" ++ cleanTitle) ++ "\n"
  else if cleanTitle = "" then ""
  else cleanTitle ++ "\n"

/-- Decimal digit list of a natural number, most significant first: a
fuel-free counterpart of `Nat.toDigits 10` used to reason about the
`-1`, `-2`, … counter names of `_build_transcript_path`. -/
def decDigits (n : Nat) : List Char :=
  if h : n < 10 then [Nat.digitChar n]
  else decDigits (n / 10) ++ [Nat.digitChar (n % 10)]
termination_by n
decreasing_by
  exact Nat.div_lt_self (Nat.lt_of_lt_of_le (by decide) (Nat.le_of_not_lt h)) (by decide)

/-- Spec wording for C7 (amended): a video is kept exactly when it is not
excluded by id, by effective title, or by a missing/empty URL. -/
def keepVideo (scraped : ScrapeRecords) (v : VideoMeta) : Bool :=
  !(optTruthy v.id && scraped.ids.contains (v.id.getD "")) &&
  !(scraped.titles.contains (effectiveTitle v)) &&
  optTruthy v.url

/-! ## Theorems

General lemmas about the helpers come first, then one theorem per claim
(with its witness or counterexample). -/

theorem head?_dropWhile_not {α : Type} (p : α → Bool) (cs : List α) :
    ∀ c, (cs.dropWhile p).head? = some c → p c = false := by
  induction cs with
  | nil => intro c h; simp [List.dropWhile] at h
  | cons x xs ih =>
    intro c h
    rw [List.dropWhile_cons] at h
    split at h
    · exact ih c h
    · simp only [List.head?_cons, Option.some.injEq] at h
      subst h
      simp_all

theorem stripTwo_head?_not {α : Type} (p : α → Bool) (cs : List α) :
    ∀ c, (((cs.dropWhile p).reverse.dropWhile p).reverse).head? = some c →
      p c = false := by
  intro c h
  rw [List.head?_reverse] at h
  obtain ⟨t, ht⟩ := List.dropWhile_suffix (l := (cs.dropWhile p).reverse) p
  have hb : ((cs.dropWhile p).reverse).getLast? = some c := by
    rw [← ht, List.getLast?_append, h]
    rfl
  rw [List.getLast?_reverse] at hb
  exact head?_dropWhile_not p cs c hb

theorem stripTwo_getLast?_not {α : Type} (p : α → Bool) (cs : List α) :
    ∀ c, (((cs.dropWhile p).reverse.dropWhile p).reverse).getLast? = some c →
      p c = false := by
  intro c h
  rw [List.getLast?_reverse] at h
  exact head?_dropWhile_not p _ c h

theorem dropWhile_eq_self_of_head {α : Type} (p : α → Bool) (cs : List α)
    (h : ∀ c, cs.head? = some c → p c = false) : cs.dropWhile p = cs := by
  cases cs with
  | nil => rfl
  | cons x xs =>
    rw [List.dropWhile_cons, h x rfl]
    simp

theorem stripTwo_eq_self {α : Type} (p : α → Bool) (cs : List α)
    (h1 : ∀ c, cs.head? = some c → p c = false)
    (h2 : ∀ c, cs.getLast? = some c → p c = false) :
    ((cs.dropWhile p).reverse.dropWhile p).reverse = cs := by
  rw [dropWhile_eq_self_of_head p cs h1]
  rw [dropWhile_eq_self_of_head p cs.reverse
    (fun c hc => h2 c (by rwa [List.head?_reverse] at hc))]
  exact List.reverse_reverse cs

theorem mem_stripTwo {α : Type} (p : α → Bool) (cs : List α) (c : α)
    (h : c ∈ ((cs.dropWhile p).reverse.dropWhile p).reverse) : c ∈ cs := by
  rw [List.mem_reverse] at h
  have h2 := (List.dropWhile_suffix (l := (cs.dropWhile p).reverse) p).subset h
  rw [List.mem_reverse] at h2
  exact (List.dropWhile_suffix p).subset h2

/-! ### C5: `slugify` -/

theorem mem_collapseRunsAux (cs : List Char) :
    ∀ (b : Bool), ∀ c ∈ collapseRunsAux b cs, isAsciiAlnum c = true ∨ c = '-' := by
  induction cs with
  | nil => intro b c hc; simp [collapseRunsAux] at hc
  | cons x xs ih =>
    intro b c hc
    rw [collapseRunsAux] at hc
    split at hc
    · rcases List.mem_cons.mp hc with h1 | h1
      · subst h1; simp_all
      · exact ih false c h1
    · split at hc
      · exact ih true c hc
      · rcases List.mem_cons.mp hc with h1 | h1
        · exact Or.inr h1
        · exact ih true c h1

theorem mem_collapseRuns (cs : List Char) :
    ∀ c ∈ collapseRuns cs, isAsciiAlnum c = true ∨ c = '-' :=
  mem_collapseRunsAux cs false

theorem stripDashes_eq (cs : List Char) :
    stripDashes cs = ((cs.dropWhile (· = '-')).reverse.dropWhile (· = '-')).reverse := rfl

/-- **C5, counterexample.**  The claim states the result of `slugify` never
ends with a hyphen, but truncation happens after hyphen-trimming: a title
whose slug has a hyphen as its 80th character keeps it.  Here the slug of
79 `a`s, a space and a `b` is 79 `a`s followed by `-b`; truncation to 80
characters leaves a trailing hyphen. -/
theorem c5_counterexample :
    (slugify (String.mk (List.replicate 79 'a' ++ [' ', 'b']))).data.getLast?
      = some '-' := by decide

/-- **C5, amended.**  `slugify` replaces every maximal non-alphanumeric run
with one hyphen, trims hyphens, truncates to at most 80 characters and
falls back to `"transcript"` when empty; the result never *begins* with a
hyphen, and it never ends with one *provided* the trimmed slug did not
exceed 80 characters (truncation may otherwise cut directly after a
hyphen). -/
theorem c5_slugify_amended (t : String) :
    (slugify t).data.length ≤ 80 ∧
    slugify t ≠ "" ∧
    (slugify t).data.head? ≠ some '-' ∧
    ((stripDashes (collapseRuns t.data)).length ≤ 80 →
      (slugify t).data.getLast? ≠ some '-') ∧
    (stripDashes (collapseRuns t.data) = [] → slugify t = "transcript") ∧
    (slugify t = "transcript" ∨
      ∀ c ∈ (slugify t).data, isAsciiAlnum c = true ∨ c = '-') := by
  unfold slugify
  by_cases he : ((stripDashes (collapseRuns t.data)).take 80).isEmpty
  · rw [if_pos he]
    refine ⟨by decide, by decide, by decide, fun _ => by decide, fun _ => rfl,
      Or.inl rfl⟩
  · rw [if_neg he]
    set slug := stripDashes (collapseRuns t.data) with hslug
    have hmem : ∀ c ∈ slug.take 80, isAsciiAlnum c = true ∨ c = '-' := by
      intro c hc
      have h1 : c ∈ slug := List.take_subset 80 slug hc
      have h2 : c ∈ collapseRuns t.data := by
        rw [hslug, stripDashes_eq] at h1
        exact mem_stripTwo _ _ c h1
      exact mem_collapseRuns t.data c h2
    refine ⟨?_, ?_, ?_, ?_, ?_, Or.inr hmem⟩
    · show (List.take 80 slug).length ≤ 80
      rw [List.length_take]
      exact inf_le_left
    · intro hcontra
      have : slug.take 80 = [] := congrArg String.data hcontra
      rw [this] at he
      exact he rfl
    · cases hs : slug with
      | nil => rw [hs] at he; exact absurd rfl he
      | cons d ds =>
        show (List.take 80 (d :: ds)).head? ≠ some '-'
        rw [List.take_cons (by norm_num : (0:Nat) < 80)]
        simp only [List.head?_cons, ne_eq, Option.some.injEq]
        intro hd
        have := stripTwo_head?_not (· = '-') (collapseRuns t.data) d
          (by rw [← stripDashes_eq, ← hslug, hs]; rfl)
        rw [hd] at this
        simp at this
    · intro h80
      show (List.take 80 slug).getLast? ≠ some '-'
      rw [List.take_of_length_le h80]
      intro hlast
      have := stripTwo_getLast?_not (· = '-') (collapseRuns t.data) '-'
        (by rw [← stripDashes_eq, ← hslug]; exact hlast)
      simp at this
    · intro hempty
      rw [hempty] at he
      exact absurd rfl he

/-- Witness for C5: the spec's own example discharges the hypothesis of the
conditional no-trailing-hyphen conjunct. -/
theorem c5_witness :
    (stripDashes (collapseRuns ("Lecture 12: Intro!!").data)).length ≤ 80 ∧
    (slugify "Lecture 12: Intro!!").data.getLast? ≠ some '-' :=
  ⟨by decide, (c5_slugify_amended "Lecture 12: Intro!!").2.2.2.1 (by decide)⟩

/-! ### C7: the dedup filter -/

theorem videosToScrape_step (scraped : ScrapeRecords) (v : VideoMeta)
    (acc : List VideoMeta) :
    (if optTruthy v.id && scraped.ids.contains (v.id.getD "") then acc
     else if scraped.titles.contains (effectiveTitle v) then acc
     else if !optTruthy v.url then acc
     else acc ++ [v])
    = if keepVideo scraped v then acc ++ [v] else acc := by
  unfold keepVideo
  cases h1 : (optTruthy v.id && scraped.ids.contains (v.id.getD "")) <;>
    cases h2 : scraped.titles.contains (effectiveTitle v) <;>
    cases h3 : optTruthy v.url <;> simp [h1, h2, h3]

theorem videosToScrape_foldl (scraped : ScrapeRecords) (videos : List VideoMeta) :
    ∀ acc : List VideoMeta,
    videos.foldl (fun acc video =>
      if optTruthy video.id && scraped.ids.contains (video.id.getD "") then acc
      else if scraped.titles.contains (effectiveTitle video) then acc
      else if !optTruthy video.url then acc
      else acc ++ [video]) acc
    = acc ++ videos.filter (keepVideo scraped) := by
  induction videos with
  | nil => intro acc; simp
  | cons v vs ih =>
    intro acc
    rw [List.foldl_cons, videosToScrape_step, List.filter_cons, ih]
    cases hk : keepVideo scraped v
    · simp [hk]
    · simp [hk, List.append_assoc]

/-- **C7, counterexample.**  The claim says a video is excluded iff its id
is in `seenIds`, its *title* matches `seenTitles`, or it has no URL.  But
the code substitutes the placeholder `"(untitled)"` for an empty title
before the lookup: a video with empty title, a URL and no id is excluded
whenever `"(untitled)"` is in `seenTitles`, although its own title is not. -/
theorem c7_counterexample :
    videosToScrape ⟨[], ["(untitled)"]⟩ [⟨"", some "http://x", none⟩] = [] ∧
    ((⟨[], ["(untitled)"]⟩ : ScrapeRecords).titles.contains "") = false := by
  decide

/-- **C7, amended.**  The work list is the ordered sublist of the enumerated
videos that the filter keeps: a video is excluded iff its (non-empty) id is
in the loaded `seenIds`, or its *effective* title — the literal
`"(untitled)"` when the title is empty — matches an entry in `seenTitles`,
or its URL is absent or empty. -/
theorem c7_filter_amended (scraped : ScrapeRecords) (videos : List VideoMeta) :
    videosToScrape scraped videos = videos.filter (keepVideo scraped) ∧
    (∀ v, v ∈ videosToScrape scraped videos ↔
      v ∈ videos ∧ keepVideo scraped v = true) := by
  have h := videosToScrape_foldl scraped videos []
  constructor
  · exact h
  · intro v
    rw [show videosToScrape scraped videos
        = videos.filter (keepVideo scraped) from h]
    exact List.mem_filter

/-! ### C8 and C10: `_append_scraped_record` -/

theorem pyStripList_idem (cs : List Char) :
    pyStripList (pyStripList cs) = pyStripList cs := by
  unfold pyStripList
  exact stripTwo_eq_self pyIsSpace _
    (stripTwo_head?_not pyIsSpace cs) (stripTwo_getLast?_not pyIsSpace cs)

theorem pyStrip_idem (s : String) : pyStrip (pyStrip s) = pyStrip s := by
  unfold pyStrip
  exact congrArg String.mk (pyStripList_idem s.data)

/-- **C8.**  `append` is append-only: the in-memory sets are updated the
same way whether or not a state path is configured, and a configured
state file grows by exactly `appendedSuffix` — one line `id|title` (with
the *stripped* title, cf. C10) when both are present, the bare id when the
stripped title is empty, the bare stripped title when the id is falsy, and
nothing when neither is present.  Nothing already persisted is modified. -/
theorem c8_append_only (recs : ScrapeRecords) (stateContent : Option String)
    (videoId : Option String) (title : String) :
    ((appendScrapedRecord recs stateContent videoId title).1
      = ⟨(if optTruthy videoId
            then addSet recs.ids (pyLower (videoId.getD "")) else recs.ids),
         (if pyStrip title = "" then recs.titles
            else addSet recs.titles (pyStrip title))⟩) ∧
    (∀ content, (appendScrapedRecord recs (some content) videoId title).2
      = some (content ++ appendedSuffix videoId title)) ∧
    ((appendScrapedRecord recs none videoId title).2 = none) := by
  refine ⟨?_, ?_, ?_⟩
  · cases h1 : optTruthy videoId <;> cases h2 : (pyStrip title == "") <;>
      cases stateContent <;>
      simp_all [appendScrapedRecord]
  · intro content
    cases h1 : optTruthy videoId <;> cases h2 : (pyStrip title == "") <;>
      simp_all [appendScrapedRecord, appendedSuffix, String.ext_iff,
        String.data_append]
  · cases h1 : optTruthy videoId <;> cases h2 : (pyStrip title == "") <;>
      simp_all [appendScrapedRecord]

/-- **C10.**  `append` trims the title before use: its whole behaviour
depends only on the stripped title; when that is non-empty it is the value
added to `seenTitles` (and, via `appendedSuffix`, the persisted portion);
a whitespace-only title behaves exactly like an absent (empty) title. -/
theorem c10_append_trims_title (recs : ScrapeRecords)
    (stateContent : Option String) (videoId : Option String) (title : String) :
    (appendScrapedRecord recs stateContent videoId title
      = appendScrapedRecord recs stateContent videoId (pyStrip title)) ∧
    (pyStrip title ≠ "" →
      (appendScrapedRecord recs stateContent videoId title).1.titles
        = addSet recs.titles (pyStrip title)) ∧
    (pyStrip title = "" →
      appendScrapedRecord recs stateContent videoId title
        = appendScrapedRecord recs stateContent videoId "") := by
  have hA : appendScrapedRecord recs stateContent videoId title
      = appendScrapedRecord recs stateContent videoId (pyStrip title) := by
    unfold appendScrapedRecord
    rw [pyStrip_idem]
  refine ⟨hA, ?_, ?_⟩
  · intro h
    cases h1 : optTruthy videoId <;> cases stateContent <;>
      simp_all [appendScrapedRecord, pyStrip_idem]
  · intro h
    rw [hA, h]

/-- Witness for C10 at two concrete titles: a padded title is recorded
stripped, and a whitespace-only title is treated as absent. -/
theorem c10_witness :
    ((appendScrapedRecord ⟨[], []⟩ (some "")
        (some "abcdef01-2345-6789-abcd-ef0123456789") " Lecture 9 ").1.titles
      = addSet ([] : List String) (pyStrip " Lecture 9 ")) ∧
    (appendScrapedRecord ⟨[], []⟩ (some "")
        (some "abcdef01-2345-6789-abcd-ef0123456789") "  "
      = appendScrapedRecord ⟨[], []⟩ (some "")
        (some "abcdef01-2345-6789-abcd-ef0123456789") "") :=
  ⟨((c10_append_trims_title ⟨[], []⟩ (some "")
      (some "abcdef01-2345-6789-abcd-ef0123456789") " Lecture 9 ").2.1
      (by decide)),
   ((c10_append_trims_title ⟨[], []⟩ (some "")
      (some "abcdef01-2345-6789-abcd-ef0123456789") "  ").2.2 (by decide))⟩

/-! ### C3: state-store round trip -/

theorem takeHex_sound : ∀ (n : Nat) (cs rest : List Char),
    takeHex n cs = some rest →
    ∃ pre, cs = pre ++ rest ∧ pre.length = n ∧ ∀ c ∈ pre, isHexChar c = true := by
  intro n
  induction n with
  | zero =>
    intro cs rest h
    simp only [takeHex, Option.some.injEq] at h
    exact ⟨[], by rw [h]; rfl, rfl, by intro c hc; simp at hc⟩
  | succ n ih =>
    intro cs rest h
    cases cs with
    | nil => simp [takeHex] at h
    | cons c cs' =>
      rw [takeHex] at h
      split at h
      · obtain ⟨pre, hpre, hlen, hhex⟩ := ih cs' rest h
        refine ⟨c :: pre, by rw [List.cons_append, hpre], by simp [hlen], ?_⟩
        intro d hd
        rcases List.mem_cons.mp hd with h1 | h1
        · subst h1; assumption
        · exact hhex d h1
      · exact absurd h (by simp)

theorem expectDash_eq_some (o : Option (List Char)) (r : List Char)
    (h : expectDash o = some r) : o = some ('-' :: r) := by
  cases o with
  | none => simp [expectDash] at h
  | some l =>
    cases l with
    | nil => simp [expectDash] at h
    | cons c rest =>
      rw [expectDash] at h
      split at h
      · rename_i hc
        injection h with h1
        rw [hc, h1]
      · exact absurd h (by simp)

theorem isUuid_parts (s : String) (h : isUuid s = true) :
    ∃ p1 p2 p3 p4 p5 : List Char,
      s.data = p1 ++ '-' :: (p2 ++ '-' :: (p3 ++ '-' :: (p4 ++ '-' :: p5))) ∧
      p1.length = 8 ∧ p2.length = 4 ∧ p3.length = 4 ∧ p4.length = 4 ∧
      p5.length = 12 ∧
      (∀ c ∈ p1, isHexChar c = true) ∧ (∀ c ∈ p2, isHexChar c = true) ∧
      (∀ c ∈ p3, isHexChar c = true) ∧ (∀ c ∈ p4, isHexChar c = true) ∧
      (∀ c ∈ p5, isHexChar c = true) := by
  unfold isUuid at h
  split at h
  · rename_i heq
    obtain ⟨r4, hB4, h12⟩ := Option.bind_eq_some.mp heq
    have hC3 := expectDash_eq_some _ _ hB4
    obtain ⟨r3, hB3, h4c⟩ := Option.bind_eq_some.mp hC3
    have hC2 := expectDash_eq_some _ _ hB3
    obtain ⟨r2, hB2, h4b⟩ := Option.bind_eq_some.mp hC2
    have hC1 := expectDash_eq_some _ _ hB2
    obtain ⟨r1, hB1, h4a⟩ := Option.bind_eq_some.mp hC1
    have hA1 := expectDash_eq_some _ _ hB1
    obtain ⟨p1, e1, l1, x1⟩ := takeHex_sound 8 _ _ hA1
    obtain ⟨p2, e2, l2, x2⟩ := takeHex_sound 4 _ _ h4a
    obtain ⟨p3, e3, l3, x3⟩ := takeHex_sound 4 _ _ h4b
    obtain ⟨p4, e4, l4, x4⟩ := takeHex_sound 4 _ _ h4c
    obtain ⟨p5, e5, l5, x5⟩ := takeHex_sound 12 _ _ h12
    rw [List.append_nil] at e5
    refine ⟨p1, p2, p3, p4, p5, ?_, l1, l2, l3, l4, l5, x1, x2, x3, x4, x5⟩
    rw [e1, e2, e3, e4, e5]
  · exact absurd h (by simp)

theorem isHexChar_not_space (c : Char) (h : isHexChar c = true) :
    pyIsSpace c = false := by
  simp [isHexChar, Char.le_def, UInt32.le_def, BitVec.le_def] at h
  simp [pyIsSpace, Char.toNat, UInt32.toNat]
  omega

theorem isHexChar_ne (c : Char) (h : isHexChar c = true) :
    c ≠ '|' ∧ c ≠ '\n' ∧ c ≠ '\r' := by
  simp [isHexChar, Char.le_def, UInt32.le_def, BitVec.le_def] at h
  refine ⟨?_, ?_, ?_⟩ <;> intro he <;> subst he <;> simp_all

/-- Every character of a UUID-shaped string is a hex digit or a hyphen. -/
theorem isUuid_mem (s : String) (h : isUuid s = true) :
    ∀ c ∈ s.data, isHexChar c = true ∨ c = '-' := by
  obtain ⟨p1, p2, p3, p4, p5, e, _, _, _, _, _, x1, x2, x3, x4, x5⟩ :=
    isUuid_parts s h
  intro c hc
  rw [e] at hc
  simp only [List.mem_append, List.mem_cons] at hc
  rcases hc with h1 | h1 | h1 | h1 | h1 | h1 | h1 | h1 | h1
  · exact Or.inl (x1 c h1)
  · exact Or.inr h1
  · exact Or.inl (x2 c h1)
  · exact Or.inr h1
  · exact Or.inl (x3 c h1)
  · exact Or.inr h1
  · exact Or.inl (x4 c h1)
  · exact Or.inr h1
  · exact Or.inl (x5 c h1)

theorem isUuid_head_hex (s : String) (h : isUuid s = true) :
    ∃ c, s.data.head? = some c ∧ isHexChar c = true := by
  obtain ⟨p1, p2, p3, p4, p5, e, l1, _, _, _, _, x1, _, _, _, _⟩ :=
    isUuid_parts s h
  cases hp : p1 with
  | nil => rw [hp] at l1; simp at l1
  | cons c cs =>
    refine ⟨c, ?_, x1 c (by rw [hp]; exact List.mem_cons_self c cs)⟩
    rw [e, hp]
    rfl

theorem isUuid_ne_empty (s : String) (h : isUuid s = true) : s ≠ "" := by
  obtain ⟨c, hc, _⟩ := isUuid_head_hex s h
  intro he
  rw [he] at hc
  simp at hc

/-- A UUID-shaped string contains no `|`, `\n`, `\r` and no whitespace. -/
theorem isUuid_char_facts (s : String) (h : isUuid s = true) :
    ∀ c ∈ s.data, c ≠ '|' ∧ c ≠ '\n' ∧ c ≠ '\r' ∧ pyIsSpace c = false := by
  intro c hc
  rcases isUuid_mem s h c hc with hx | hd
  · exact ⟨(isHexChar_ne c hx).1, (isHexChar_ne c hx).2.1,
      (isHexChar_ne c hx).2.2, isHexChar_not_space c hx⟩
  · subst hd
    exact ⟨by decide, by decide, by decide, by decide⟩

theorem splitFirst_of_not_mem (sep : Char) (cs : List Char)
    (h : sep ∉ cs) : splitFirst sep cs = (cs, none) := by
  induction cs with
  | nil => rfl
  | cons c cs' ih =>
    rw [splitFirst]
    rw [if_neg (by intro he; exact h (he ▸ List.mem_cons_self c cs'))]
    rw [ih (fun hm => h (List.mem_cons_of_mem c hm))]

theorem splitFirst_append (sep : Char) (xs ys : List Char)
    (h : sep ∉ xs) : splitFirst sep (xs ++ sep :: ys) = (xs, some ys) := by
  induction xs with
  | nil => simp [splitFirst]
  | cons x xs' ih =>
    rw [List.cons_append, splitFirst]
    rw [if_neg (by intro he; exact h (he ▸ List.mem_cons_self x xs'))]
    rw [ih (fun hm => h (List.mem_cons_of_mem x hm))]

theorem universalizeNewlines_eq_self (cs : List Char)
    (h : '\r' ∉ cs) : universalizeNewlines cs = cs := by
  induction cs with
  | nil => rfl
  | cons c cs' ih =>
    have hc : c ≠ '\r' := fun he => h (he ▸ List.mem_cons_self c cs')
    have h' : '\r' ∉ cs' := fun hm => h (List.mem_cons_of_mem c hm)
    rw [universalizeNewlines.eq_def]
    split
    · rename_i heq
      exact absurd heq (by simp)
    · rename_i heq
      injection heq with e1 _
      exact absurd e1 hc
    · rename_i heq
      injection heq with e1 _
      exact absurd e1 hc
    · rename_i heq
      injection heq with e1 e2
      subst e1
      subst e2
      rw [ih h']

theorem splitOnCharAux_ne_nil (sep : Char) (acc cs : List Char) :
    splitOnCharAux sep acc cs ≠ [] := by
  induction cs generalizing acc with
  | nil => simp [splitOnCharAux]
  | cons c cs' ih =>
    rw [splitOnCharAux]
    split
    · simp
    · exact ih (c :: acc)

theorem splitOnCharAux_no_sep (sep : Char) (xs : List Char) (h : sep ∉ xs) :
    ∀ acc ds, splitOnCharAux sep acc (xs ++ ds)
      = splitOnCharAux sep (xs.reverse ++ acc) ds := by
  induction xs with
  | nil => intro acc ds; rfl
  | cons x xs' ih =>
    intro acc ds
    have hx : x ≠ sep := fun he => h (he ▸ List.mem_cons_self x xs')
    rw [List.cons_append, splitOnCharAux, if_neg hx,
      ih (fun hm => h (List.mem_cons_of_mem x hm)) (x :: acc)]
    rw [List.reverse_cons, List.append_assoc]
    rfl

theorem splitOnCharAux_append_sep (sep : Char) :
    ∀ (xs acc ds : List Char),
    splitOnCharAux sep acc ((xs ++ [sep]) ++ ds)
      = (splitOnCharAux sep acc (xs ++ [sep])).dropLast ++ splitOnCharAux sep [] ds := by
  intro xs
  induction xs with
  | nil =>
    intro acc ds
    simp only [List.nil_append, List.cons_append, splitOnCharAux, if_pos rfl]
    rfl
  | cons x xs' ih =>
    intro acc ds
    rw [List.cons_append, List.cons_append, splitOnCharAux, splitOnCharAux]
    by_cases hx : x = sep
    · rw [if_pos hx, if_pos hx, ih [] ds,
        List.dropLast_cons_of_ne_nil (splitOnCharAux_ne_nil _ _ _),
        List.cons_append]
    · rw [if_neg hx, if_neg hx]
      exact ih (x :: acc) ds

theorem dropLast_map {α β : Type} (f : α → β) (l : List α) :
    (l.map f).dropLast = l.dropLast.map f := by
  induction l with
  | nil => rfl
  | cons x xs ih =>
    cases xs with
    | nil => rfl
    | cons y ys =>
      show f x :: (List.map f (y :: ys)).dropLast
        = f x :: List.map f ((y :: ys).dropLast)
      rw [ih]

theorem contains_iff_mem (xs : List String) (x : String) :
    xs.contains x = true ↔ x ∈ xs := by
  simp [List.contains_eq_any_beq]

theorem mem_addSet_self (xs : List String) (x : String) : x ∈ addSet xs x := by
  unfold addSet
  split
  · rename_i hc
    exact (contains_iff_mem xs x).mp hc
  · exact List.mem_append_right xs (List.mem_singleton.mpr rfl)

theorem mem_addSet_of_mem (xs : List String) (x y : String) (h : x ∈ xs) :
    x ∈ addSet xs y := by
  unfold addSet
  split
  · exact h
  · exact List.mem_append_left _ h

theorem loadLine_ids_mono (recs : ScrapeRecords) (l : String) (x : String)
    (h : x ∈ recs.ids) : x ∈ (loadLine recs l).ids := by
  simp only [loadLine]
  split
  · exact h
  · split
    · split
      · split
        · exact mem_addSet_of_mem _ _ _ h
        · exact mem_addSet_of_mem _ _ _ h
      · exact mem_addSet_of_mem _ _ _ h
    · exact h

theorem loadLine_titles_mono (recs : ScrapeRecords) (l : String) (x : String)
    (h : x ∈ recs.titles) : x ∈ (loadLine recs l).titles := by
  simp only [loadLine]
  split
  · exact h
  · split
    · split
      · split
        · exact mem_addSet_of_mem _ _ _ h
        · exact h
      · exact h
    · exact mem_addSet_of_mem _ _ _ h

theorem foldl_loadLine_mono (lines : List String) (recs : ScrapeRecords)
    (x : String) :
    (x ∈ recs.ids → x ∈ (lines.foldl loadLine recs).ids) ∧
    (x ∈ recs.titles → x ∈ (lines.foldl loadLine recs).titles) := by
  induction lines generalizing recs with
  | nil => exact ⟨id, id⟩
  | cons l ls ih =>
    rw [List.foldl_cons]
    exact ⟨fun h => (ih (loadLine recs l)).1 (loadLine_ids_mono recs l x h),
      fun h => (ih (loadLine recs l)).2 (loadLine_titles_mono recs l x h)⟩

theorem eq_dropLast_append_of_getLast? {α : Type} (l : List α) (a : α)
    (h : l.getLast? = some a) : l = l.dropLast ++ [a] := by
  induction l with
  | nil => simp at h
  | cons x xs ih =>
    cases xs with
    | nil =>
      simp only [List.getLast?_singleton, Option.some.injEq] at h
      rw [h]
      rfl
    | cons y ys =>
      rw [List.getLast?_cons_cons] at h
      rw [List.dropLast_cons_of_ne_nil (by simp), List.cons_append]
      exact congrArg (x :: ·) (ih h)

theorem data_ne_nil (s : String) (h : s ≠ "") : s.data ≠ [] :=
  fun hd => h (congrArg String.mk hd)

theorem mem_of_getLast? {α : Type} {l : List α} {a : α}
    (h : l.getLast? = some a) : a ∈ l := by
  rw [← List.head?_reverse] at h
  rw [← List.mem_reverse]
  exact List.mem_of_mem_head? (by rw [h]; exact Option.mem_def.mpr rfl)

theorem pyStrip_eq_self (s : String)
    (h1 : ∀ c, s.data.head? = some c → pyIsSpace c = false)
    (h2 : ∀ c, s.data.getLast? = some c → pyIsSpace c = false) :
    pyStrip s = s :=
  congrArg String.mk (stripTwo_eq_self pyIsSpace s.data h1 h2)

theorem isUuid_pyStrip (s : String) (h : isUuid s = true) : pyStrip s = s := by
  apply pyStrip_eq_self
  · intro c hc
    exact (isUuid_char_facts s h c (List.mem_of_mem_head? (by rw [hc]; rfl))).2.2.2
  · intro c hc
    exact (isUuid_char_facts s h c (mem_of_getLast? hc)).2.2.2

/-- The ends of a string equal to its own strip are not whitespace. -/
theorem stripped_ends (t : String) (hstr : pyStrip t = t) :
    (∀ c, t.data.head? = some c → pyIsSpace c = false) ∧
    (∀ c, t.data.getLast? = some c → pyIsSpace c = false) := by
  have hd : pyStripList t.data = t.data := congrArg String.data hstr
  constructor
  · intro c hc
    rw [← hd] at hc
    exact stripTwo_head?_not pyIsSpace t.data c hc
  · intro c hc
    rw [← hd] at hc
    exact stripTwo_getLast?_not pyIsSpace t.data c hc

theorem loadLine_uuid_line (recs : ScrapeRecords) (id title : String)
    (hid : isUuid id = true) (hstr : pyStrip title = title) (hne : title ≠ "") :
    loadLine recs (id ++ "|" ++ title)
      = ⟨addSet recs.ids (pyLower id), addSet recs.titles title⟩ := by
  have hdata : (id ++ "|" ++ title).data = id.data ++ '|' :: title.data := by
    simp [String.data_append]
  have hpipe : '|' ∉ id.data := fun hm => (isUuid_char_facts id hid '|' hm).1 rfl
  have hLstrip : pyStrip (id ++ "|" ++ title) = id ++ "|" ++ title := by
    apply pyStrip_eq_self
    · intro c hc
      rw [hdata, List.head?_append] at hc
      obtain ⟨c0, hc0, hhex⟩ := isUuid_head_hex id hid
      rw [hc0] at hc
      rw [show (some c0).or (('|' :: title.data).head?) = some c0 from rfl] at hc
      injection hc with e
      subst e
      exact isHexChar_not_space c0 hhex
    · intro c hc
      rw [hdata, List.getLast?_append] at hc
      obtain ⟨cl, hcl⟩ : ∃ cl, title.data.getLast? = some cl := by
        cases htd : title.data with
        | nil => exact absurd htd (data_ne_nil title hne)
        | cons a as => exact ⟨(a :: as).getLast (by simp),
            List.getLast?_eq_getLast _ _⟩
      have ht : ('|' :: title.data).getLast? = some cl := by
        cases htd : title.data with
        | nil => exact absurd htd (data_ne_nil title hne)
        | cons a as =>
          rw [List.getLast?_cons_cons, ← htd]
          exact hcl
      rw [ht] at hc
      rw [show (some cl).or (id.data.getLast?) = some cl from rfl] at hc
      injection hc with e
      subst e
      exact (stripped_ends title hstr).2 cl hcl
  have hLne : ((id ++ "|" ++ title) == "") = false := by
    rw [beq_eq_false_iff_ne]
    intro he
    have h2 : (id ++ "|" ++ title).data = [] := congrArg String.data he
    rw [hdata] at h2
    simp at h2
  simp only [loadLine, hLstrip, hLne, Bool.false_eq_true, if_false,
    hdata, splitFirst_append '|' id.data title.data hpipe]
  have hmkid : String.mk id.data = id := rfl
  have hmktitle : String.mk title.data = title := rfl
  rw [hmkid, hmktitle, isUuid_pyStrip id hid, hid, hstr]
  simp [hne]

theorem splitOnCharAux_single (sep : Char) (acc : List Char) :
    splitOnCharAux sep acc [sep] = [acc.reverse, []] := by
  rw [splitOnCharAux, if_pos rfl]
  rfl

/-- **C3, counterexample.**  The claim quantifies over *every* title, but
appending an id with an empty (or whitespace-only) title writes the bare
id, so reloading yields a store whose `seenTitles` does not contain that
title. -/
theorem c3_counterexample :
    "" ∉ (loadScrapedRecords
      ((appendScrapedRecord ⟨[], []⟩ (some "")
        (some "11111111-1111-1111-1111-111111111111") "").2)).titles := by
  decide

/-- **C3, amended.**  Round trip for every UUID-shaped id and every
*storable* title — non-empty, already stripped, free of line breaks — when
the state file is as `append` itself leaves it (newline-terminated or
empty, no carriage returns): appending and reloading yields a store whose
`seenIds` contains the id lower-cased and whose `seenTitles` contains the
title.  A whitespace-only title is recorded as a bare id line (see the
counterexample and C10). -/
theorem c3_roundtrip_amended (recs : ScrapeRecords) (content id title : String)
    (hid : isUuid id = true)
    (hstr : pyStrip title = title) (hne : title ≠ "")
    (hnl : '\n' ∉ title.data) (hcr : '\r' ∉ title.data)
    (hccr : '\r' ∉ content.data)
    (hterm : content = "" ∨ content.data.getLast? = some '\n') :
    ∃ newContent : String,
      (appendScrapedRecord recs (some content) (some id) title).2
        = some newContent ∧
      pyLower id ∈ (loadScrapedRecords (some newContent)).ids ∧
      title ∈ (loadScrapedRecords (some newContent)).titles := by
  have htruthy : optTruthy (some id) = true := by
    unfold optTruthy
    simp only [Option.getD_some, Bool.not_eq_true']
    rw [beq_eq_false_iff_ne]
    exact isUuid_ne_empty id hid
  have happ : (appendScrapedRecord recs (some content) (some id) title).2
      = some (content ++ (id ++ "|" ++ title) ++ "\n") := by
    simp [appendScrapedRecord, htruthy, hstr, hne]
  refine ⟨content ++ (id ++ "|" ++ title) ++ "\n", happ, ?_⟩
  set L := id ++ "|" ++ title with hL
  have hLdata : L.data = id.data ++ '|' :: title.data := by
    simp [hL, String.data_append]
  have hnolnL : '\n' ∉ L.data := by
    rw [hLdata]
    intro hm
    rcases List.mem_append.mp hm with h1 | h1
    · exact (isUuid_char_facts id hid '\n' h1).2.1 rfl
    · rcases List.mem_cons.mp h1 with h2 | h2
      · exact absurd h2.symm (by decide)
      · exact hnl h2
  have hnocrL : '\r' ∉ L.data := by
    rw [hLdata]
    intro hm
    rcases List.mem_append.mp hm with h1 | h1
    · exact (isUuid_char_facts id hid '\r' h1).2.2.1 rfl
    · rcases List.mem_cons.mp h1 with h2 | h2
      · exact absurd h2.symm (by decide)
      · exact hcr h2
  have hd : (content ++ L ++ "\n").data = content.data ++ (L.data ++ ['\n']) := by
    simp [String.data_append]
  have hnocr : '\r' ∉ (content ++ L ++ "\n").data := by
    rw [hd]
    intro hm
    rcases List.mem_append.mp hm with h1 | h1
    · exact hccr h1
    · rcases List.mem_append.mp h1 with h2 | h2
      · exact hnocrL h2
      · simp at h2
  have hnocr2 : '\r' ∉ content.data ++ (L.data ++ ['\n']) := by
    rw [← hd]
    exact hnocr
  have hsplit : splitFileLines (content ++ L ++ "\n")
      = ((splitOnChar '\n' content.data).dropLast
          ++ [L.data, []]).map String.mk := by
    unfold splitFileLines
    rw [hd, universalizeNewlines_eq_self _ hnocr2]
    cases hterm with
    | inl hempty =>
      have hcd : content.data = [] := by rw [hempty]
      rw [hcd, List.nil_append]
      unfold splitOnChar
      rw [splitOnCharAux_no_sep '\n' L.data hnolnL [] ['\n'],
        List.append_nil, splitOnCharAux_single, List.reverse_reverse]
      rfl
    | inr hlast =>
      have hdec : content.data = content.data.dropLast ++ ['\n'] :=
        eq_dropLast_append_of_getLast? _ _ hlast
      rw [hdec]
      unfold splitOnChar
      rw [splitOnCharAux_append_sep '\n' content.data.dropLast [] (L.data ++ ['\n']),
        splitOnCharAux_no_sep '\n' L.data hnolnL [] ['\n'],
        List.append_nil, splitOnCharAux_single, List.reverse_reverse]
  have hload0 : ∀ r : ScrapeRecords, loadLine r "" = r := fun r => rfl
  show pyLower id ∈ (loadScrapedRecords (some (content ++ L ++ "\n"))).ids ∧
    title ∈ (loadScrapedRecords (some (content ++ L ++ "\n"))).titles
  have hLmk : String.mk L.data = L := rfl
  have hfold : loadScrapedRecords (some (content ++ L ++ "\n"))
      = loadLine (loadLine
          (((splitOnChar '\n' content.data).dropLast.map String.mk).foldl
            loadLine ⟨[], []⟩) L) "" := by
    show (splitFileLines (content ++ L ++ "\n")).foldl loadLine ⟨[], []⟩ = _
    rw [hsplit, List.map_append, List.foldl_append]
    rfl
  rw [hfold, hload0, loadLine_uuid_line _ id title hid hstr hne]
  exact ⟨mem_addSet_self _ _, mem_addSet_self _ _⟩

/-- Witness for C3 at the spec's own example: id plus `"Lecture 1"` into an
empty state file. -/
theorem c3_witness :
    ∃ newContent : String,
      (appendScrapedRecord ⟨[], []⟩ (some "")
        (some "ABCDEF01-2345-6789-abcd-EF0123456789") "Lecture 1").2
        = some newContent ∧
      pyLower "ABCDEF01-2345-6789-abcd-EF0123456789"
        ∈ (loadScrapedRecords (some newContent)).ids ∧
      "Lecture 1" ∈ (loadScrapedRecords (some newContent)).titles :=
  c3_roundtrip_amended ⟨[], []⟩ "" "ABCDEF01-2345-6789-abcd-EF0123456789"
    "Lecture 1" (by decide) (by decide) (by decide) (by decide) (by decide)
    (by decide) (Or.inl rfl)

/-! ### C4 and C9: `_extract_transcript_line` -/

theorem timestampIdx_cons (p : String) (ps : List String) :
    timestampIdx (p :: ps)
      = match timestampIdx ps with
        | some i => some (i + 1)
        | none => if isTimestamp p then some 0 else none := by
  unfold timestampIdx
  rw [List.length_cons, List.range_succ_eq_map, List.reverse_cons,
    List.find?_append, ← List.map_reverse, List.find?_map]
  have hcomp : ((fun i => isTimestamp ((p :: ps).getD i "")) ∘ Nat.succ)
      = (fun i => isTimestamp (ps.getD i "")) := by
    funext i
    simp [List.getD_cons_succ]
  rw [hcomp]
  cases hf : List.find? (fun i => isTimestamp (ps.getD i ""))
      (List.range ps.length).reverse with
  | none => simp [List.getD_cons_zero]
  | some i => simp

theorem popLastTimestamp_eq (pieces : List String) :
    popLastTimestamp pieces
      = match timestampIdx pieces with
        | some i => (some (pieces.getD i ""), pieces.eraseIdx i)
        | none => (none, pieces) := by
  induction pieces with
  | nil => rfl
  | cons p ps ih =>
    rw [popLastTimestamp, ih, timestampIdx_cons]
    cases hti : timestampIdx ps with
    | some i => simp [List.getD_cons_succ, List.eraseIdx_cons_succ]
    | none =>
      cases hts : isTimestamp p <;>
        simp [hts, List.getD_cons_zero, List.eraseIdx_cons_zero]

theorem joinSpaces_ne_nil (ps : List String) (hps : ps ≠ [])
    (hne : ∀ p ∈ ps, p ≠ "") : joinSpaces ps ≠ [] := by
  cases ps with
  | nil => exact absurd rfl hps
  | cons p ps' =>
    cases ps' with
    | nil => exact data_ne_nil p (hne p (List.mem_singleton.mpr rfl))
    | cons q qs => simp [joinSpaces]

theorem joinSpaces_head? (ps : List String) (hne : ∀ p ∈ ps, p ≠ "") :
    ∀ c, (joinSpaces ps).head? = some c → ∃ p ∈ ps, p.data.head? = some c := by
  cases ps with
  | nil => intro c hc; simp [joinSpaces] at hc
  | cons p ps' =>
    cases ps' with
    | nil =>
      intro c hc
      exact ⟨p, List.mem_singleton.mpr rfl, hc⟩
    | cons q qs =>
      intro c hc
      rw [show joinSpaces (p :: q :: qs) = p.data ++ ' ' :: joinSpaces (q :: qs)
        from rfl, List.head?_append] at hc
      cases hd : p.data with
      | nil => exact absurd hd (data_ne_nil p (hne p (by simp)))
      | cons d ds =>
        rw [hd] at hc
        rw [show ((d :: ds).head?).or ((' ' :: joinSpaces (q :: qs)).head?)
            = some d from rfl] at hc
        injection hc with e
        exact ⟨p, by simp, by rw [hd, List.head?_cons, e]⟩

theorem joinSpaces_getLast? (ps : List String) (hne : ∀ p ∈ ps, p ≠ "") :
    ∀ c, (joinSpaces ps).getLast? = some c →
      ∃ p ∈ ps, p.data.getLast? = some c := by
  induction ps with
  | nil => intro c hc; simp [joinSpaces] at hc
  | cons p ps' ih =>
    cases ps' with
    | nil =>
      intro c hc
      exact ⟨p, List.mem_singleton.mpr rfl, hc⟩
    | cons q qs =>
      intro c hc
      rw [show joinSpaces (p :: q :: qs) = p.data ++ ' ' :: joinSpaces (q :: qs)
        from rfl, List.getLast?_append] at hc
      have hne' : ∀ r ∈ q :: qs, r ≠ "" :=
        fun r hr => hne r (List.mem_cons_of_mem p hr)
      cases hjd : joinSpaces (q :: qs) with
      | nil => exact absurd hjd (joinSpaces_ne_nil _ (by simp) hne')
      | cons a as =>
        rw [hjd, List.getLast?_cons_cons] at hc
        obtain ⟨x, hx⟩ : ∃ x, (a :: as).getLast? = some x :=
          ⟨(a :: as).getLast (by simp), List.getLast?_eq_getLast _ _⟩
        rw [hx] at hc
        rw [show (some x).or (p.data.getLast?) = some x from rfl] at hc
        injection hc with e
        obtain ⟨r, hr, hrl⟩ := ih hne' c (by rw [hjd, hx, e])
        exact ⟨r, List.mem_cons_of_mem p hr, hrl⟩

theorem mem_joinSpaces (ps : List String) (c : Char) (h : c ∈ joinSpaces ps) :
    (∃ p ∈ ps, c ∈ p.data) ∨ c = ' ' := by
  induction ps with
  | nil => simp [joinSpaces] at h
  | cons p ps' ih =>
    cases ps' with
    | nil => exact Or.inl ⟨p, by simp, h⟩
    | cons q qs =>
      rw [show joinSpaces (p :: q :: qs) = p.data ++ ' ' :: joinSpaces (q :: qs)
        from rfl] at h
      rcases List.mem_append.mp h with h1 | h1
      · exact Or.inl ⟨p, by simp, h1⟩
      · rcases List.mem_cons.mp h1 with h2 | h2
        · exact Or.inr h2
        · rcases ih h2 with ⟨r, hr, hrc⟩ | hsp
          · exact Or.inl ⟨r, List.mem_cons_of_mem p hr, hrc⟩
          · exact Or.inr hsp


theorem pySplitlinesAux_no_break (acc cs : List Char)
    (hacc : ∀ c ∈ acc, isLineBreak c = false) :
    ∀ l ∈ pySplitlinesAux acc cs, ∀ c ∈ l, isLineBreak c = false := by
  induction acc, cs using pySplitlinesAux.induct with
  | case1 acc =>
    intro l hl c hc
    rw [show pySplitlinesAux acc [] = [acc.reverse] from rfl] at hl
    rw [List.mem_singleton.mp hl] at hc
    exact hacc c (List.mem_reverse.mp hc)
  | case2 acc c hbr =>
    intro l hl d hd
    rw [show pySplitlinesAux acc [c]
        = if isLineBreak c then [acc.reverse] else [(c :: acc).reverse] from rfl,
      if_pos hbr] at hl
    rw [List.mem_singleton.mp hl] at hd
    exact hacc d (List.mem_reverse.mp hd)
  | case3 acc c hbr =>
    intro l hl d hd
    rw [show pySplitlinesAux acc [c]
        = if isLineBreak c then [acc.reverse] else [(c :: acc).reverse] from rfl,
      if_neg hbr] at hl
    rw [List.mem_singleton.mp hl] at hd
    rcases List.mem_cons.mp (List.mem_reverse.mp hd) with h1 | h1
    · rw [h1]
      exact eq_false_of_ne_true hbr
    · exact hacc d h1
  | case4 acc c d rest hpair ih =>
    intro l hl e he
    rw [show pySplitlinesAux acc (c :: d :: rest)
        = if (c = '\r' && d = '\n') then
            acc.reverse :: (if rest.isEmpty then [] else pySplitlinesAux [] rest)
          else if isLineBreak c then acc.reverse :: pySplitlinesAux [] (d :: rest)
          else pySplitlinesAux (c :: acc) (d :: rest) from rfl,
      if_pos hpair] at hl
    rcases List.mem_cons.mp hl with h1 | h1
    · rw [h1] at he
      exact hacc e (List.mem_reverse.mp he)
    · split at h1
      · simp at h1
      · exact ih (by intro x hx; simp at hx) l h1 e he
  | case5 acc c d rest hpair hbr ih =>
    intro l hl e he
    rw [show pySplitlinesAux acc (c :: d :: rest)
        = if (c = '\r' && d = '\n') then
            acc.reverse :: (if rest.isEmpty then [] else pySplitlinesAux [] rest)
          else if isLineBreak c then acc.reverse :: pySplitlinesAux [] (d :: rest)
          else pySplitlinesAux (c :: acc) (d :: rest) from rfl,
      if_neg hpair, if_pos hbr] at hl
    rcases List.mem_cons.mp hl with h1 | h1
    · rw [h1] at he
      exact hacc e (List.mem_reverse.mp he)
    · exact ih (by intro x hx; simp at hx) l h1 e he
  | case6 acc c d rest hpair hbr ih =>
    intro l hl e he
    rw [show pySplitlinesAux acc (c :: d :: rest)
        = if (c = '\r' && d = '\n') then
            acc.reverse :: (if rest.isEmpty then [] else pySplitlinesAux [] rest)
          else if isLineBreak c then acc.reverse :: pySplitlinesAux [] (d :: rest)
          else pySplitlinesAux (c :: acc) (d :: rest) from rfl,
      if_neg hpair, if_neg hbr] at hl
    refine ih ?_ l hl e he
    intro x hx
    rcases List.mem_cons.mp hx with h1 | h1
    · rw [h1]
      exact eq_false_of_ne_true hbr
    · exact hacc x h1

theorem pySplitlines_no_break (raw : String) :
    ∀ l ∈ pySplitlines raw, ∀ c ∈ l.data, isLineBreak c = false := by
  intro l hl c hc
  unfold pySplitlines at hl
  split at hl
  · simp at hl
  · obtain ⟨l', hl', hmk⟩ := List.mem_map.mp hl
    have hld : l.data = l' := by rw [← hmk]
    rw [hld] at hc
    exact pySplitlinesAux_no_break [] _ (by intro x hx; simp at hx) l' hl' c hc

/-- Every kept piece is non-empty, already stripped, and break-free. -/
theorem pieces_facts (raw : String) :
    ∀ p ∈ ((pySplitlines raw).map pyStrip).filter keepPiece,
      p ≠ "" ∧ pyStrip p = p ∧ ∀ c ∈ p.data, isLineBreak c = false := by
  intro p hp
  obtain ⟨hmem, hkeep⟩ := List.mem_filter.mp hp
  obtain ⟨x, hx, hpx⟩ := List.mem_map.mp hmem
  refine ⟨?_, ?_, ?_⟩
  · intro he
    rw [← hpx, keepPiece] at hkeep
    rw [hpx, he] at hkeep
    simp at hkeep
  · rw [← hpx]
    exact pyStrip_idem x
  · intro c hc
    have hcx : c ∈ x.data := by
      rw [← hpx] at hc
      exact mem_stripTwo pyIsSpace x.data c hc
    exact pySplitlines_no_break raw x hx c hcx

/-- Joining non-empty stripped pieces yields an already-stripped string. -/
theorem joinSpaces_stripped (rest : List String)
    (h : ∀ p ∈ rest, p ≠ "" ∧ pyStrip p = p) :
    pyStrip (String.mk (joinSpaces rest)) = String.mk (joinSpaces rest) := by
  apply pyStrip_eq_self
  · intro c hc
    obtain ⟨p, hp, hph⟩ := joinSpaces_head? rest (fun p hp => (h p hp).1) c hc
    exact (stripped_ends p (h p hp).2).1 c hph
  · intro c hc
    obtain ⟨p, hp, hpl⟩ := joinSpaces_getLast? rest (fun p hp => (h p hp).1) c hc
    exact (stripped_ends p (h p hp).2).2 c hpl

theorem finishLine_eq (timestamp : Option String) (rest : List String)
    (hfacts : ∀ p ∈ rest, p ≠ "" ∧ pyStrip p = p) :
    finishLine timestamp rest
      = if (joinSpaces rest).isEmpty = true then none
        else
          match timestamp with
          | some ts => some (ts ++ " " ++ String.mk (joinSpaces rest))
          | none => some (String.mk (joinSpaces rest)) := by
  unfold finishLine
  rw [joinSpaces_stripped rest hfacts]
  by_cases hb : joinSpaces rest = []
  · rw [hb]
    rfl
  · have h1 : (String.mk (joinSpaces rest) == "") = false := by
      rw [beq_eq_false_iff_ne]
      intro he
      exact hb (congrArg String.data he)
    have h2 : (joinSpaces rest).isEmpty = false := by
      rw [List.isEmpty_eq_false_iff_exists_mem]
      cases hj : joinSpaces rest with
      | nil => exact absurd hj hb
      | cons a as => exact ⟨a, by simp⟩
    simp [h1, h2]

/-- **C4.**  `cleanTranscriptLine` is, for every raw text, exactly the
spec-side pipeline: split into non-empty trimmed lines, drop the
`"retry"`/`"cancel"` noise case-insensitively, remove at most one
timestamp token found scanning from the end, join the rest with single
spaces, prefix the timestamp with a single space, absent when no body
remains — including the spec's two worked examples. -/
theorem c4_clean_transcript_line :
    (∀ raw, extractTranscriptLine raw = cleanTranscriptLineSpec raw) ∧
    extractTranscriptLine "Retry\n1:23:45\nHello world"
      = some "1:23:45 Hello world" ∧
    extractTranscriptLine "Cancel\nRetry" = none := by
  refine ⟨?_, by decide, by decide⟩
  intro raw
  have hfacts : ∀ p ∈ transcriptPieces raw, p ≠ "" ∧ pyStrip p = p :=
    fun p hp => ⟨(pieces_facts raw p hp).1, (pieces_facts raw p hp).2.1⟩
  unfold extractTranscriptLine cleanTranscriptLineSpec
  rw [popLastTimestamp_eq]
  by_cases hP0 : (transcriptPieces raw).isEmpty = true
  · have hnil : transcriptPieces raw = [] := List.isEmpty_iff.mp hP0
    rw [hnil]
    rfl
  · rw [if_neg hP0]
    cases hti : timestampIdx (transcriptPieces raw) with
    | some i =>
      have hrest : ∀ p ∈ (transcriptPieces raw).eraseIdx i,
          p ≠ "" ∧ pyStrip p = p :=
        fun p hp => hfacts p (List.eraseIdx_subset _ _ hp)
      dsimp only
      rw [finishLine_eq _ _ hrest]
    | none =>
      dsimp only
      rw [finishLine_eq _ _ hfacts]

theorem finishLine_shape (timestamp : Option String) (rest : List String)
    (s : String)
    (hfacts : ∀ p ∈ rest, p ≠ "" ∧ pyStrip p = p ∧
      ∀ c ∈ p.data, isLineBreak c = false)
    (hts : ∀ ts, timestamp = some ts → ts ≠ "" ∧ pyStrip ts = ts ∧
      ∀ c ∈ ts.data, isLineBreak c = false)
    (h : finishLine timestamp rest = some s) :
    s ≠ "" ∧ (∀ c ∈ s.data, isLineBreak c = false) ∧ pyStrip s = s := by
  have hfacts2 : ∀ p ∈ rest, p ≠ "" ∧ pyStrip p = p :=
    fun p hp => ⟨(hfacts p hp).1, (hfacts p hp).2.1⟩
  unfold finishLine at h
  rw [joinSpaces_stripped rest hfacts2] at h
  by_cases hb : joinSpaces rest = []
  · rw [hb] at h
    simp at h
  · have h1 : (String.mk (joinSpaces rest) == "") = false := by
      rw [beq_eq_false_iff_ne]
      intro he
      exact hb (congrArg String.data he)
    simp only [h1, Bool.false_eq_true, if_false] at h
    have hbodychars : ∀ c ∈ joinSpaces rest, isLineBreak c = false := by
      intro c hc
      rcases mem_joinSpaces rest c hc with ⟨p, hp, hcp⟩ | hsp
      · exact (hfacts p hp).2.2 c hcp
      · rw [hsp]; decide
    have hbodystrip := joinSpaces_stripped rest hfacts2
    cases hto : timestamp with
    | none =>
      rw [hto] at h
      injection h with hs
      subst hs
      refine ⟨?_, hbodychars, hbodystrip⟩
      intro he
      exact hb (congrArg String.data he)
    | some ts =>
      rw [hto] at h
      injection h with hs
      subst hs
      obtain ⟨htsne, htsstrip, htschars⟩ := hts ts hto
      have hdata : (ts ++ " " ++ String.mk (joinSpaces rest)).data
          = ts.data ++ ' ' :: joinSpaces rest := by
        simp [String.data_append]
      refine ⟨?_, ?_, ?_⟩
      · intro he
        have h2 : (ts ++ " " ++ String.mk (joinSpaces rest)).data = [] :=
          congrArg String.data he
        rw [hdata] at h2
        simp at h2
      · intro c hc
        rw [hdata] at hc
        rcases List.mem_append.mp hc with h2 | h2
        · exact htschars c h2
        · rcases List.mem_cons.mp h2 with h3 | h3
          · rw [h3]; decide
          · exact hbodychars c h3
      · apply pyStrip_eq_self
        · intro c hc
          rw [hdata, List.head?_append] at hc
          cases htd : ts.data with
          | nil => exact absurd htd (data_ne_nil ts htsne)
          | cons d ds =>
            rw [htd] at hc
            rw [show ((d :: ds).head?).or ((' ' :: joinSpaces rest).head?)
                = some d from rfl] at hc
            injection hc with e
            exact (stripped_ends ts htsstrip).1 c (by rw [htd, ← e]; rfl)
        · intro c hc
          rw [hdata, List.getLast?_append] at hc
          cases hjd : joinSpaces rest with
          | nil => exact absurd hjd hb
          | cons a as =>
            rw [hjd, List.getLast?_cons_cons] at hc
            obtain ⟨x, hx⟩ : ∃ x, (a :: as).getLast? = some x :=
              ⟨(a :: as).getLast (by simp), List.getLast?_eq_getLast _ _⟩
            rw [hx] at hc
            rw [show (some x).or (ts.data.getLast?) = some x from rfl] at hc
            injection hc with e
            exact (stripped_ends (String.mk (joinSpaces rest)) hbodystrip).2 c
              (by rw [show (String.mk (joinSpaces rest)).data
                  = joinSpaces rest from rfl, hjd, hx, ← e])

/-- **C9.**  A non-absent result of `cleanTranscriptLine` is a non-empty
string with no newline (indeed no `str.splitlines` boundary character at
all) and no leading or trailing whitespace, so it occupies exactly one
line of the newline-joined output file. -/
theorem c9_line_shape (raw s : String)
    (h : extractTranscriptLine raw = some s) :
    s ≠ "" ∧ '\n' ∉ s.data ∧ (∀ c ∈ s.data, isLineBreak c = false) ∧
      pyStrip s = s := by
  have hfacts : ∀ p ∈ transcriptPieces raw, p ≠ "" ∧ pyStrip p = p ∧
      ∀ c ∈ p.data, isLineBreak c = false := fun p hp => pieces_facts raw p hp
  unfold extractTranscriptLine at h
  simp only [] at h
  split at h
  · simp at h
  · split at h
    · rename_i i hti
      have hidx : i ∈ (List.range (transcriptPieces raw).length).reverse :=
        List.mem_of_find?_eq_some hti
      have hilt : i < (transcriptPieces raw).length := by
        rw [List.mem_reverse, List.mem_range] at hidx
        exact hidx
      have htsP : (transcriptPieces raw).getD i "" ∈ transcriptPieces raw := by
        rw [List.getD_eq_getElem?_getD, List.getElem?_eq_getElem hilt]
        exact List.getElem_mem _
      obtain ⟨hne, hchars, hstrip⟩ :=
        finishLine_shape _ _ s
          (fun p hp => hfacts p (List.eraseIdx_subset _ _ hp))
          (fun ts hts => by
            injection hts with e
            rw [← e]
            exact hfacts _ htsP) h
      exact ⟨hne, fun hm => absurd (hchars '\n' hm) (by decide), hchars, hstrip⟩
    · obtain ⟨hne, hchars, hstrip⟩ :=
        finishLine_shape _ _ s hfacts (by intro ts hts; simp at hts) h
      exact ⟨hne, fun hm => absurd (hchars '\n' hm) (by decide), hchars, hstrip⟩

/-- Witness for C9 on a concrete noisy raw text. -/
theorem c9_witness :
    extractTranscriptLine "Retry\n 1:23 \n  Hello  " = some "1:23 Hello" ∧
    ("1:23 Hello" ≠ "" ∧ '\n' ∉ "1:23 Hello".data ∧
      (∀ c ∈ "1:23 Hello".data, isLineBreak c = false) ∧
      pyStrip "1:23 Hello" = "1:23 Hello") :=
  ⟨by decide, c9_line_shape "Retry\n 1:23 \n  Hello  " "1:23 Hello" (by decide)⟩

theorem decDigits_lt (n : Nat) (h : n < 10) : decDigits n = [Nat.digitChar n] := by
  rw [decDigits]
  exact dif_pos h

theorem decDigits_ge (n : Nat) (h : ¬ n < 10) :
    decDigits n = decDigits (n / 10) ++ [Nat.digitChar (n % 10)] := by
  conv_lhs => rw [decDigits]
  exact dif_neg h

theorem decDigits_ne_nil (n : Nat) : decDigits n ≠ [] := by
  by_cases h : n < 10
  · rw [decDigits_lt n h]
    simp
  · rw [decDigits_ge n h]
    simp

theorem digitChar_lt_inj :
    ∀ i < 10, ∀ j < 10, Nat.digitChar i = Nat.digitChar j → i = j := by decide

theorem decDigits_inj : ∀ m n : Nat, decDigits m = decDigits n → m = n := by
  intro m
  induction m using decDigits.induct with
  | case1 m hm =>
    intro n h
    rw [decDigits_lt m hm] at h
    by_cases hn : n < 10
    · rw [decDigits_lt n hn] at h
      injection h with h1
      exact digitChar_lt_inj m hm n hn h1
    · rw [decDigits_ge n hn] at h
      have hlen := congrArg List.length h
      rw [List.length_append] at hlen
      cases hd : decDigits (n / 10) with
      | nil => exact absurd hd (decDigits_ne_nil _)
      | cons a as =>
        rw [hd] at hlen
        simp at hlen
  | case2 m hm ih =>
    intro n h
    rw [decDigits_ge m hm] at h
    by_cases hn : n < 10
    · rw [decDigits_lt n hn] at h
      have hlen := congrArg List.length h
      rw [List.length_append] at hlen
      cases hd : decDigits (m / 10) with
      | nil => exact absurd hd (decDigits_ne_nil _)
      | cons a as =>
        rw [hd] at hlen
        simp at hlen
    · rw [decDigits_ge n hn] at h
      obtain ⟨h3, h4⟩ := List.append_inj' h rfl
      have h5 : m / 10 = n / 10 := ih (n / 10) h3
      injection h4 with h6
      have h7 : m % 10 = n % 10 :=
        digitChar_lt_inj (m % 10) (Nat.mod_lt m (by decide)) (n % 10)
          (Nat.mod_lt n (by decide)) h6
      omega

theorem toDigitsCore_eq (fuel : Nat) :
    ∀ n : Nat, ∀ ds : List Char, n < fuel →
      Nat.toDigitsCore 10 fuel n ds = decDigits n ++ ds := by
  induction fuel with
  | zero =>
    intro n ds h
    omega
  | succ fuel ih =>
    intro n ds h
    rw [show Nat.toDigitsCore 10 (fuel + 1) n ds
        = (if n / 10 = 0 then Nat.digitChar (n % 10) :: ds
           else Nat.toDigitsCore 10 fuel (n / 10) (Nat.digitChar (n % 10) :: ds))
        from rfl]
    by_cases h0 : n / 10 = 0
    · rw [if_pos h0]
      have hn : n < 10 := by omega
      rw [decDigits_lt n hn, Nat.mod_eq_of_lt hn]
      rfl
    · rw [if_neg h0]
      have hn : ¬ n < 10 := by omega
      rw [ih (n / 10) (Nat.digitChar (n % 10) :: ds) (by omega)]
      rw [decDigits_ge n hn, List.append_assoc]
      rfl

theorem repr_data (n : Nat) : (Nat.repr n).data = decDigits n := by
  rw [show (Nat.repr n).data = Nat.toDigitsCore 10 (n + 1) n [] from rfl,
    toDigitsCore_eq (n + 1) n [] (Nat.lt_succ_self n)]
  simp

theorem repr_data_inj (m n : Nat) (h : (Nat.repr m).data = (Nat.repr n).data) :
    m = n := by
  apply decDigits_inj m n
  rw [← repr_data m, ← repr_data n]
  exact h

theorem counterName_inj (base : String) (j k : Nat)
    (h : counterName base j = counterName base k) : j = k := by
  apply repr_data_inj
  have hd := congrArg String.data h
  simp only [counterName, String.data_append, List.append_assoc] at hd
  have h1 := List.append_cancel_left hd
  have h2 := List.append_cancel_left h1
  exact (List.append_inj' h2 rfl).1

theorem exists_free_counter (existing : List String) (base : String) (k : Nat) :
    ∃ j, k ≤ j ∧ j < k + (existing.length + 1) ∧
      counterName base j ∉ existing := by
  by_contra hcon
  push_neg at hcon
  have hmaps : ∀ i ∈ Finset.range (existing.length + 1),
      counterName base (k + i) ∈ existing.toFinset := by
    intro i hi
    rw [List.mem_toFinset]
    rw [Finset.mem_range] at hi
    exact hcon (k + i) (Nat.le_add_right k i) (by omega)
  have hinj : Set.InjOn (fun i => counterName base (k + i))
      (Finset.range (existing.length + 1)) := by
    intro a _ b _ hab
    have := counterName_inj base (k + a) (k + b) hab
    omega
  have hcard := Finset.card_le_card_of_injOn _ hmaps hinj
  rw [Finset.card_range] at hcard
  have := existing.toFinset_card_le
  omega

theorem firstFreeCounter_step (existing : List String) (base : String)
    (k fuel : Nat) :
    firstFreeCounter existing base k (fuel + 1)
      = if existing.contains (counterName base k) then
          firstFreeCounter existing base (k + 1) fuel
        else counterName base k := rfl

theorem firstFreeCounter_spec (existing : List String) (base : String) :
    ∀ fuel k : Nat,
      (∃ j, k ≤ j ∧ j < k + fuel ∧ counterName base j ∉ existing) →
      ∃ j, k ≤ j ∧
        firstFreeCounter existing base k fuel = counterName base j ∧
        counterName base j ∉ existing ∧
        ∀ i, k ≤ i → i < j → counterName base i ∈ existing := by
  intro fuel
  induction fuel with
  | zero =>
    rintro k ⟨j, h1, h2, -⟩
    omega
  | succ fuel ih =>
    rintro k ⟨j, h1, h2, h3⟩
    by_cases hk : existing.contains (counterName base k)
    · have hkmem : counterName base k ∈ existing :=
        (contains_iff_mem existing _).mp hk
      have hjk : j ≠ k := by
        intro he
        rw [he] at h3
        exact h3 hkmem
      obtain ⟨q, hq1, hq2, hq3, hq4⟩ := ih (k + 1) ⟨j, by omega, by omega, h3⟩
      refine ⟨q, by omega, ?_, hq3, ?_⟩
      · rw [firstFreeCounter_step, if_pos hk]
        exact hq2
      · intro i hi1 hi2
        rcases Nat.eq_or_lt_of_le hi1 with he | hlt
        · rw [← he]
          exact hkmem
        · exact hq4 i hlt hi2
    · refine ⟨k, Nat.le_refl k, ?_, ?_, ?_⟩
      · rw [firstFreeCounter_step, if_neg hk]
      · intro hmem
        exact hk ((contains_iff_mem existing _).mpr hmem)
      · intro i hi1 hi2
        omega

theorem buildTranscriptPath_eq (existing : List String)
    (title videoId : Option String) :
    buildTranscriptPath existing title videoId
      = if existing.contains (transcriptBase title videoId ++ ".txt") then
          firstFreeCounter existing (transcriptBase title videoId) 1
            (existing.length + 1)
        else transcriptBase title videoId ++ ".txt" := rfl

/-- **C6.**  On the directory model (the list of existing file names), the
path builder returns the base name `{slug}{-id8}.txt` when no file of that
name exists; otherwise it returns `{base}-{j}.txt` for the first counter
`j ≥ 1` whose name is free, every smaller counter being taken; in every
case the returned name is not that of an existing file, and the function
only tests existence (the model never modifies the directory), so nothing
is deleted or overwritten. -/
theorem c6_build_path (existing : List String) (title videoId : Option String) :
    buildTranscriptPath existing title videoId ∉ existing ∧
    (transcriptBase title videoId ++ ".txt" ∉ existing →
      buildTranscriptPath existing title videoId
        = transcriptBase title videoId ++ ".txt") ∧
    (transcriptBase title videoId ++ ".txt" ∈ existing →
      ∃ j, 1 ≤ j ∧
        buildTranscriptPath existing title videoId
          = counterName (transcriptBase title videoId) j ∧
        counterName (transcriptBase title videoId) j ∉ existing ∧
        ∀ i, 1 ≤ i → i < j →
          counterName (transcriptBase title videoId) i ∈ existing) := by
  rw [buildTranscriptPath_eq]
  by_cases hex : existing.contains (transcriptBase title videoId ++ ".txt")
  · rw [if_pos hex]
    have hmem : transcriptBase title videoId ++ ".txt" ∈ existing :=
      (contains_iff_mem existing _).mp hex
    obtain ⟨j, hj1, hj2, hj3, hj4⟩ := firstFreeCounter_spec existing
      (transcriptBase title videoId) (existing.length + 1) 1
      (exists_free_counter existing (transcriptBase title videoId) 1)
    rw [hj2]
    exact ⟨hj3, fun hno => absurd hmem hno,
      fun _ => ⟨j, hj1, rfl, hj3, hj4⟩⟩
  · rw [if_neg hex]
    have hnm : transcriptBase title videoId ++ ".txt" ∉ existing :=
      fun hm => hex ((contains_iff_mem existing _).mpr hm)
    exact ⟨hnm, fun _ => rfl, fun hm => absurd hm hnm⟩

/-- Witness for C6: with `b.txt` and `b-1.txt` taken, the builder picks
`b-2.txt`, which is not an existing name. -/
theorem c6_witness :
    buildTranscriptPath ["b.txt", "b-1.txt"] (some "b") none = "b-2.txt" ∧
    buildTranscriptPath ["b.txt", "b-1.txt"] (some "b") none ∉
      ["b.txt", "b-1.txt"] :=
  ⟨by decide, (c6_build_path ["b.txt", "b-1.txt"] (some "b") none).1⟩

theorem dropWhile_head_false {α : Type} (p : α → Bool) (l : List α)
    (h : ∀ c, l.head? = some c → p c = false) : l.dropWhile p = l := by
  cases l with
  | nil => rfl
  | cons c cs =>
    rw [List.dropWhile_cons, h c rfl]
    simp

theorem takeWhile_append_stop {α : Type} (p : α → Bool) :
    ∀ (xs ys : List α), (∀ x ∈ xs, p x = true) →
      (∀ c, ys.head? = some c → p c = false) →
      (xs ++ ys).takeWhile p = xs := by
  intro xs
  induction xs with
  | nil =>
    intro ys h1 h2
    cases ys with
    | nil => rfl
    | cons c cs =>
      rw [List.nil_append, List.takeWhile_cons, h2 c rfl]
      simp
  | cons x xs' ih =>
    intro ys h1 h2
    rw [List.cons_append, List.takeWhile_cons, h1 x (List.mem_cons_self x xs'),
      ih ys (fun a ha => h1 a (List.mem_cons_of_mem x ha)) h2]
    simp

theorem splitOnCharAux_snoc_sep (sep : Char) :
    ∀ (xs acc : List Char),
      splitOnCharAux sep acc (xs ++ [sep]) = splitOnCharAux sep acc xs ++ [[]] := by
  intro xs
  induction xs with
  | nil =>
    intro acc
    rw [List.nil_append, splitOnCharAux_single]
    rfl
  | cons x xs' ih =>
    intro acc
    rw [List.cons_append, splitOnCharAux, splitOnCharAux]
    by_cases hx : x = sep
    · rw [if_pos hx, if_pos hx, ih []]
      rfl
    · rw [if_neg hx, if_neg hx, ih (x :: acc)]

theorem splitOnCharAux_nil_no_sep (sep : Char) (l : List Char) (h : sep ∉ l) :
    splitOnCharAux sep [] l = [l] := by
  have h2 := splitOnCharAux_no_sep sep l h [] []
  rw [List.append_nil] at h2
  rw [h2, splitOnCharAux]
  simp

theorem splitOnChar_no_sep (sep : Char) (l : List Char) (h : sep ∉ l) :
    splitOnChar sep l = [l] := by
  unfold splitOnChar
  exact splitOnCharAux_nil_no_sep sep l h

theorem splitOnChar_last_sep (sep : Char) (a b : List Char) (hb : sep ∉ b) :
    splitOnChar sep ((a ++ [sep]) ++ b) = splitOnChar sep a ++ [b] := by
  unfold splitOnChar
  rw [splitOnCharAux_append_sep sep a [] b, splitOnCharAux_snoc_sep sep a,
    List.dropLast_concat, splitOnCharAux_nil_no_sep sep b hb]

theorem exists_last_sep_decomp (sep : Char) (l : List Char) (h : sep ∈ l) :
    ∃ a b, sep ∉ b ∧ l = (a ++ [sep]) ++ b := by
  have hd : l.reverse.dropWhile (fun c => decide (c ≠ sep)) ≠ [] := by
    rw [Ne, List.dropWhile_eq_nil_iff]
    push_neg
    exact ⟨sep, List.mem_reverse.mpr h, by simp⟩
  cases hD : l.reverse.dropWhile (fun c => decide (c ≠ sep)) with
  | nil => exact absurd hD hd
  | cons c D' =>
    have hc : c = sep := by
      have h1 := head?_dropWhile_not (fun c => decide (c ≠ sep)) l.reverse c
        (by rw [hD]; rfl)
      simpa using h1
    refine ⟨D'.reverse,
      (l.reverse.takeWhile (fun c => decide (c ≠ sep))).reverse, ?_, ?_⟩
    · intro hmem
      have h2 := List.mem_takeWhile_imp (List.mem_reverse.mp hmem)
      simp at h2
    · conv_lhs => rw [← List.reverse_reverse l,
        ← @List.takeWhile_append_dropWhile Char (fun c => decide (c ≠ sep))
          l.reverse,
        hD, hc]
      rw [List.reverse_append, List.reverse_cons]

theorem lastSegment_eq (path : List Char) :
    lastSegment path
      = ((path.reverse.dropWhile (· = '/')).takeWhile (· ≠ '/')).reverse := by
  simp only [lastSegment, List.reverse_reverse]

theorem lastSegment_no_sep (l : List Char) (h : '/' ∉ l) : lastSegment l = l := by
  have h1 : ∀ c, l.reverse.head? = some c → decide (c = '/') = false := by
    intro c hc
    have hm : c ∈ l.reverse := by
      cases hr : l.reverse with
      | nil => rw [hr] at hc; simp at hc
      | cons a as =>
        rw [hr] at hc
        injection hc with e
        rw [← e]
        exact List.mem_cons_self a as
    rw [decide_eq_false_iff_not]
    intro he
    rw [he] at hm
    exact h (List.mem_reverse.mp hm)
  have h2 := takeWhile_append_stop (fun c => decide (c ≠ '/')) l.reverse []
    (by
      intro x hx
      rw [decide_eq_true_eq]
      intro he
      rw [he] at hx
      exact h (List.mem_reverse.mp hx))
    (by intro c hc; simp at hc)
  rw [List.append_nil] at h2
  rw [lastSegment_eq, dropWhile_head_false _ _ h1, h2, List.reverse_reverse]

theorem lastSegment_last_sep (a b : List Char) (hb : '/' ∉ b) (hbe : b ≠ []) :
    lastSegment ((a ++ ['/']) ++ b) = b := by
  have hrev : (((a ++ ['/']) ++ b).reverse)
      = b.reverse ++ '/' :: a.reverse := by
    rw [List.reverse_append, List.reverse_append]
    rfl
  have hbr : b.reverse ≠ [] := by
    intro he
    exact hbe (by rw [← List.reverse_reverse b, he]; rfl)
  have hmemb : ∀ x ∈ b.reverse, x ≠ '/' := by
    intro x hx he
    rw [he] at hx
    exact hb (List.mem_reverse.mp hx)
  have h1 : ∀ c, (b.reverse ++ '/' :: a.reverse).head? = some c →
      decide (c = '/') = false := by
    intro c hc
    cases hbrc : b.reverse with
    | nil => exact absurd hbrc hbr
    | cons x xs =>
      rw [hbrc] at hc
      rw [List.cons_append] at hc
      injection hc with e
      rw [decide_eq_false_iff_not, ← e]
      exact hmemb x (by rw [hbrc]; exact List.mem_cons_self x xs)
  have h2 := takeWhile_append_stop (fun c => decide (c ≠ '/')) b.reverse
    ('/' :: a.reverse)
    (by
      intro x hx
      rw [decide_eq_true_eq]
      exact hmemb x hx)
    (by intro c hc; injection hc with e; rw [← e]; simp)
  rw [lastSegment_eq, hrev, dropWhile_head_false _ _ h1, h2,
    List.reverse_reverse]

theorem lastSegment_snoc_sep (x : List Char) :
    lastSegment (x ++ ['/']) = lastSegment x := by
  rw [lastSegment_eq, lastSegment_eq, List.reverse_append]
  rw [show ((['/'] : List Char).reverse ++ x.reverse)
      = '/' :: x.reverse from rfl]
  rw [List.dropWhile_cons]
  simp

theorem filtered_last_aux : ∀ (n : Nat) (l : List Char), l.length ≤ n →
    ((splitOnChar '/' l).filter (fun s => !List.isEmpty s)).getLast?
      = if lastSegment l = [] then none else some (lastSegment l) := by
  intro n
  induction n with
  | zero =>
    intro l hl
    have he : l = [] := List.eq_nil_of_length_eq_zero (Nat.le_zero.mp hl)
    subst he
    decide
  | succ n ih =>
    intro l hl
    by_cases hsep : '/' ∈ l
    · obtain ⟨a, b, hb, hleq⟩ := exists_last_sep_decomp '/' l hsep
      subst hleq
      rw [splitOnChar_last_sep '/' a b hb, List.filter_append]
      by_cases hbe : b = []
      · subst hbe
        rw [show List.filter (fun s => !List.isEmpty s) [([] : List Char)]
            = [] from rfl]
        simp only [List.append_nil]
        rw [lastSegment_snoc_sep a]
        have hlen : a.length + 1 ≤ n + 1 := by simpa using hl
        exact ih a (Nat.le_of_succ_le_succ hlen)
      · have hfb : List.filter (fun s => !List.isEmpty s) [b] = [b] := by
          cases b with
          | nil => exact absurd rfl hbe
          | cons x xs => rfl
        rw [hfb, List.getLast?_concat, lastSegment_last_sep a b hb hbe,
          if_neg hbe]
    · rw [splitOnChar_no_sep '/' l hsep, lastSegment_no_sep l hsep]
      cases l with
      | nil => decide
      | cons x xs =>
        rw [show List.filter (fun s => !List.isEmpty s) [x :: xs]
            = [x :: xs] from rfl]
        rw [List.getLast?_singleton, if_neg (by simp)]

theorem pathUuidFallback_eq (path : String) :
    pathUuidFallback path
      = (if !(lastSegment path.data).isEmpty
            && isUuid (String.mk (lastSegment path.data))
         then some (pyLower (String.mk (lastSegment path.data)))
         else none) := by
  unfold pathUuidFallback
  rw [filtered_last_aux path.data.length path.data (Nat.le_refl _)]
  by_cases hL : lastSegment path.data = []
  · rw [if_pos hL, hL]
    rfl
  · rw [if_neg hL]
    have hne : (lastSegment path.data).isEmpty = false := by
      cases hc : lastSegment path.data with
      | nil => exact absurd hc hL
      | cons a as => rfl
    dsimp only
    rw [hne]
    simp

theorem queryLoop_cons (q : List (String × List String)) (k : String)
    (ks : List String) :
    queryLoop q (k :: ks)
      = match firstUuidValue q k with
        | some v => some (pyLower v)
        | none => queryLoop q ks := by
  rw [queryLoop]
  unfold firstUuidValue
  cases hl : q.lookup k with
  | none => dsimp only
  | some vs =>
    cases vs with
    | nil => dsimp only
    | cons v rest =>
      dsimp only
      by_cases hv : isUuid v = true
      · have hne : (v == "") = false := by
          rw [beq_eq_false_iff_ne]
          intro he
          rw [he] at hv
          exact absurd hv (by decide)
        simp [hv, hne]
      · simp at hv
        simp [hv]

set_option maxRecDepth 8192 in
/-- Counterexample to C1 as stated: the URL carries a UUID-shaped value
under query key `id` (as its *second* value), but `_extract_video_id`
inspects only `values[0]` per key, so it returns absent. -/
theorem c1_counterexample :
    (parseQs "id=x&id=11111111-1111-1111-1111-111111111111").lookup "id"
        = some ["x", "11111111-1111-1111-1111-111111111111"] ∧
    "11111111-1111-1111-1111-111111111111"
        ∈ ["x", "11111111-1111-1111-1111-111111111111"] ∧
    isUuid "11111111-1111-1111-1111-111111111111" = true ∧
    extractVideoId
        (some "https://host/p?id=x&id=11111111-1111-1111-1111-111111111111")
      = .ok none :=
  ⟨by decide, by decide, by decide, by rfl⟩

/-- **C1 (amended).**  Whenever `urlparse` succeeds on a non-empty URL,
`_extract_video_id` returns exactly: for the keys `id`, `objectId`,
`contentID` in priority order, the *first* stored value of the first key
whose first value matches the UUID shape, lower-cased (later values under
a key are never examined); otherwise the path's last non-empty segment
when it matches the UUID shape, lower-cased; otherwise absent. -/
theorem c1_extract_amended (u : String) (parsed : UrlParseResult)
    (hu : ¬ u = "") (hp : pyUrlparse u = .ok parsed) :
    extractVideoId (some u) = .ok (specVideoId parsed) := by
  unfold extractVideoId
  rw [show (some u).getD "" = u from rfl, if_neg hu, hp]
  dsimp only
  rw [queryLoop_cons, queryLoop_cons, queryLoop_cons,
    show queryLoop (parseQs parsed.query) [] = none from rfl]
  unfold specVideoId
  cases firstUuidValue (parseQs parsed.query) "id" with
  | some v => rfl
  | none =>
    dsimp only
    cases firstUuidValue (parseQs parsed.query) "objectId" with
    | some v => rfl
    | none =>
      dsimp only
      cases firstUuidValue (parseQs parsed.query) "contentID" with
      | some v => rfl
      | none =>
        dsimp only
        rw [pathUuidFallback_eq]
        by_cases hc : (!(lastSegment parsed.path.data).isEmpty
            && isUuid (String.mk (lastSegment parsed.path.data))) = true
        · rw [if_pos hc, if_pos hc]
        · rw [if_neg hc, if_neg hc]

set_option maxRecDepth 8192 in
/-- Witness for the amended C1 on a concrete URL whose `id` first value is
an upper-case UUID. -/
theorem c1_witness :
    extractVideoId (some "http://h/p?id=AAAAAAAA-1111-1111-1111-111111111111")
      = .ok (specVideoId
          ⟨"http", "h", "/p", "id=AAAAAAAA-1111-1111-1111-111111111111", ""⟩)
    ∧ specVideoId
        ⟨"http", "h", "/p", "id=AAAAAAAA-1111-1111-1111-111111111111", ""⟩
      = some "aaaaaaaa-1111-1111-1111-111111111111" :=
  ⟨c1_extract_amended "http://h/p?id=AAAAAAAA-1111-1111-1111-111111111111"
      ⟨"http", "h", "/p", "id=AAAAAAAA-1111-1111-1111-111111111111", ""⟩
      (by decide) (by rfl),
    by decide⟩

set_option maxRecDepth 8192 in
/-- **C2.**  Refuted as stated: `_extract_video_id` calls `urlparse`
unguarded, and `urlsplit` raises `ValueError("Invalid IPv6 URL")` on a
netloc with an unmatched `[`, so the exception propagates — absent is not
the only error signal on malformed URLs. -/
theorem c2_raises_on_bad_bracket :
    extractVideoId (some "http://[") = .error "Invalid IPv6 URL" := by rfl
